import Mathlib

/-!
Verification of the `rust-gc` collector core (`src/gc/src/gc.rs`, `src/gc/src/weak.rs`).

The development is a shallow embedding of the collector: allocation records
(`GcBox` header + payload) become a finite association list from record
identities (`Nat`, standing for the box address) to `Rec`; the intrusive chain
is the `next` field of each header together with the state's `boxes_start`;
the packed header word (mark bit in the top bit, root count below) is a `Nat`
manipulated with explicit `% 2^63` arithmetic.  The payload's traceable
capability (trait `Trace`, whose implementation lives outside the collector
core) is modelled by explicit per-record fields: `children` (the managed
references `trace` would visit), `ephs` (the ephemeron pairs `weak_trace`
would contribute), `isMarkedEph` (the `is_marked_ephemeron` report) and
`finActions` (the effect of the `finalize_glue` hook, modelled from the spec
as a list of records whose root count the finalizer raises by storing a new
strong handle).
-/

namespace RustGc

/-- Header-word layout, from `gc.rs` lines 59-61: the top bit of a 64-bit
`usize` is the mark flag, all lower bits are the root count. -/
def MARK_MASK : Nat := 2 ^ 63

/-- `ROOTS_MASK = !MARK_MASK` restricted to 64-bit words. -/
def ROOTS_MASK : Nat := MARK_MASK - 1

/-- Maximum representable root count (`ROOTS_MAX` in `gc.rs` line 61). -/
def ROOTS_MAX : Nat := ROOTS_MASK

/-- `GcBoxHeader::roots` (`gc.rs` 86-88): `w &&& ROOTS_MASK`, i.e. the word
modulo `2^63` (words stay below `2^64`). -/
def rootsOf (w : Nat) : Nat := w % MARK_MASK

/-- `GcBoxHeader::is_marked` (`gc.rs` 109-111): the top bit is set; for a
word below `2^64` this is `2^63 ≤ w`. -/
def markedOf (w : Nat) : Bool := decide (MARK_MASK ≤ w)

/-- `GcBoxHeader::mark` (`gc.rs` 114-116): `w ||| MARK_MASK`. -/
def markW (w : Nat) : Nat := if markedOf w then w else w + MARK_MASK

/-- `GcBoxHeader::unmark` (`gc.rs` 119-121): `w &&& !MARK_MASK`. -/
def unmarkW (w : Nat) : Nat := w % MARK_MASK

/-- `GcBoxHeader::inc_roots` (`gc.rs` 91-101): increments the word if the
root count is below `ROOTS_MAX`, otherwise aborts (modelled by `none`). -/
def incRootsW (w : Nat) : Option Nat :=
  if rootsOf w < ROOTS_MAX then some (w + 1) else none

/-- `GcBoxHeader::dec_roots` (`gc.rs` 104-106): decrement with no underflow
check. -/
def decRootsW (w : Nat) : Nat := w - 1

/-- An allocation record: the `GcBoxHeader` (`hdr` = packed roots/mark word,
`next` = chain link) together with the payload.  `size` is
`mem::size_of_val` of the whole box, `data` the opaque stored value.  The
remaining fields model the payload's `Trace`/`Finalize` capability, whose
implementations are outside the collector core (see module comment). -/
structure Rec where
  hdr : Nat
  next : Option Nat
  size : Nat
  data : Nat
  children : List Nat
  ephs : List (Nat × Nat)
  isMarkedEph : Bool
  finActions : List Nat
deriving DecidableEq

/-- The set of live boxes of one thread-local context, keyed by identity. -/
abbrev Store := List (Nat × Rec)

/-- Lookup a record by identity (dereference of a `GcPointer`). -/
def slookup : Store → Nat → Option Rec
  | [], _ => none
  | (k, r) :: t, i => if k = i then some r else slookup t i

/-- Update the record at an identity in place (a `Cell` write). -/
def supdate : Store → Nat → (Rec → Rec) → Store
  | [], _, _ => []
  | (k, r) :: t, i, f => if k = i then (k, f r) :: t else (k, r) :: supdate t i f

/-- Remove the record at an identity (deallocation via `Box::from_raw`). -/
def serase : Store → Nat → Store
  | [], _ => []
  | (k, r) :: t, i => if k = i then t else (k, r) :: serase t i

/-- Record-level mark. -/
def markRec (r : Rec) : Rec := { r with hdr := markW r.hdr }

/-- Record-level unmark. -/
def unmarkRec (r : Rec) : Rec := { r with hdr := unmarkW r.hdr }

/-- Record-level `dec_roots`. -/
def decRootsRec (r : Rec) : Rec := { r with hdr := decRootsW r.hdr }

/-- Record-level `inc_roots`; the real header aborts at `ROOTS_MAX`
(captured separately by `incRootsW`), here the overflow case is left
unchanged because the collector-level theorems never reach it. -/
def incRootsSat (r : Rec) : Rec :=
  { r with hdr := if rootsOf r.hdr < ROOTS_MAX then r.hdr + 1 else r.hdr }

/-- The thread-local `GcState` (`gc.rs` 16-20) with its `GcStats` and
`GcConfig` inlined: chain head, byte counter, collection counter, and the
configuration fields. -/
structure GcState where
  store : Store
  boxes_start : Option Nat
  bytes_allocated : Nat
  collections_performed : Nat
  threshold : Nat
  used_space_frac : ℚ
  leak_on_drop : Bool
deriving DecidableEq

/-- `GcBox::trace_inner` (`gc.rs` 266-271): if unmarked, mark the record and
trace through its payload, i.e. recursively trace every managed child.
Recursion is by fuel; each productive step marks a previously unmarked
record, so fuel `store.length + 1` always suffices. -/
def traceInner (fuel : Nat) (s : Store) (i : Nat) : Store :=
  match fuel with
  | 0 => s
  | fuel + 1 =>
    match slookup s i with
    | none => s
    | some r =>
      if markedOf r.hdr then s
      else r.children.foldl (fun acc c => traceInner fuel acc c) (supdate s i markRec)

/-- `trace_inner` with the always-sufficient fuel. -/
def traceInnerTop (s : Store) (i : Nat) : Store := traceInner (s.length + 1) s i

/-- `initial_mark_and_collect_ephemerons` (`gc.rs` 329-341): walk the chain;
every record with a positive root count is traced (marking it and its
transitive children) and its payload's ephemeron pairs are appended to the
worklist.  The walk follows the `next` links, which tracing never changes. -/
def initialMarkAux : Nat → Store → Option Nat → List (Nat × Nat) →
    Store × List (Nat × Nat)
  | 0, s, _, q => (s, q)
  | _ + 1, s, none, q => (s, q)
  | fuel + 1, s, some i, q =>
    match slookup s i with
    | none => (s, q)
    | some r =>
      if 0 < rootsOf r.hdr then
        let s1 := traceInnerTop s i
        initialMarkAux fuel s1 (match slookup s1 i with
          | none => none
          | some r1 => r1.next) (q ++ r.ephs)
      else
        initialMarkAux fuel s r.next q

/-- The initial-mark walk with fuel covering the whole chain. -/
def initialMarkRun (s : Store) (head : Option Nat) : Store × List (Nat × Nat) :=
  initialMarkAux (s.length + 1) s head []

/-- Total number of ephemeron pairs contributable by payloads, bounding the
growth of the worklist. -/
def totalEphs (s : Store) : Nat := (s.map (fun kr => kr.2.ephs.length)).sum

/-- `process_ephemeron_queue` (`gc.rs` 343-355): process the worklist by
index; a pair's key counts as reachable if its header is marked or its
payload reports itself a resolved ephemeron; then an unmarked value is
traced and its own pairs appended.  Each append is for a freshly marked
value, so the queue grows by at most `totalEphs` and the fuel
`q.length + totalEphs s + 1` covers every index ever reached. -/
def processEphAux : Nat → Store → List (Nat × Nat) → Nat → Store
  | 0, s, _, _ => s
  | fuel + 1, s, q, idx =>
    if h : idx < q.length then
      let p := q.get ⟨idx, h⟩
      let keyMarked :=
        match slookup s p.1 with
        | some rk => markedOf rk.hdr || rk.isMarkedEph
        | none => false
      match slookup s p.2 with
      | some rv =>
        if keyMarked && !markedOf rv.hdr then
          processEphAux fuel (traceInnerTop s p.2) (q ++ rv.ephs) (idx + 1)
        else processEphAux fuel s q (idx + 1)
      | none => processEphAux fuel s q (idx + 1)
    else s

/-- The ephemeron fixed-point loop with its sufficient fuel. -/
def processEphRun (s : Store) (q : List (Nat × Nat)) : Store :=
  processEphAux (q.length + totalEphs s + 1) s q 0

/-- Steps 1-2 of a collection: initial mark plus ephemeron resolution
(`gc.rs` 377-378 and 391-392). -/
def markPhase (s : Store) (head : Option Nat) : Store :=
  processEphRun (initialMarkRun s head).1 (initialMarkRun s head).2

/-- `collect_unmarked_nodes` (`gc.rs` 357-372): walk the chain again; unmark
every marked record, and move every unmarked record onto the condemned list
together with its incoming slot — `none` for the chain head cell, `some p`
for the `next` cell of its predecessor `p`. -/
def collectUnmarkedAux : Nat → Store → Option Nat → Option Nat →
    List (Option Nat × Nat) → Store × List (Option Nat × Nat)
  | 0, s, _, _, acc => (s, acc)
  | _ + 1, s, none, _, acc => (s, acc)
  | fuel + 1, s, some i, slot, acc =>
    match slookup s i with
    | none => (s, acc)
    | some r =>
      if markedOf r.hdr then
        collectUnmarkedAux fuel (supdate s i unmarkRec) r.next (some i) acc
      else
        collectUnmarkedAux fuel s r.next (some i) (acc ++ [(slot, i)])

/-- The unmark/condemn walk with fuel covering the whole chain. -/
def collectUnmarkedRun (s : Store) (head : Option Nat) :
    Store × List (Option Nat × Nat) :=
  collectUnmarkedAux (s.length + 1) s head none []

/-- Finalization of one condemned record (`Trace::finalize_glue`, invoked at
`gc.rs` 386-388).  Modelled from the spec: the `Finalize` implementation is
outside the collector core; its observable effect on the collector is the
creation of new strong handles, i.e. raising the root counts of the records
listed in `finActions` (spec §4.2 step 6 and §8, resurrection). -/
def finalizeGlue (s : Store) (i : Nat) : Store :=
  match slookup s i with
  | none => s
  | some r => r.finActions.foldl (fun acc t => supdate acc t incRootsSat) s

/-- Step 5 of a collection: run every condemned record's finalizer, in
condemned-list (discovery) order. -/
def finalizePhase (s : Store) (c : List (Option Nat × Nat)) : Store :=
  c.foldl (fun acc e => finalizeGlue acc e.2) s

/-- Write through a recorded incoming slot: the chain-head cell (`none`) or
the `next` cell of record `p` (`some p`). -/
def writeSlot (st : GcState) (slot : Option Nat) (v : Option Nat) : GcState :=
  match slot with
  | none => { st with boxes_start := v }
  | some p => { st with store := supdate st.store p (fun r => { r with next := v }) }

/-- One iteration of `sweep`'s loop (`gc.rs` 312-320): skip the record if it
is marked now; otherwise deallocate it, subtract its size from the byte
counter, and splice it out by writing its own `next` into its recorded
incoming slot. -/
def sweepStep (st : GcState) (e : Option Nat × Nat) : GcState :=
  match slookup st.store e.2 with
  | none => st
  | some r =>
    if markedOf r.hdr then st
    else
      let st1 : GcState :=
        { st with store := serase st.store e.2,
                  bytes_allocated := st.bytes_allocated - r.size }
      writeSlot st1 e.1 r.next

/-- `sweep` (`gc.rs` 310-321): visit the condemned list from tail to head
(`into_iter().rev()`), deallocating every record that is not marked. -/
def sweep (c : List (Option Nat × Nat)) (st : GcState) : GcState :=
  c.reverse.foldl sweepStep st

/-- Marked store after steps 1-2 of a collection of `st`. -/
def markedStore (st : GcState) : Store := markPhase st.store st.boxes_start

/-- Store after step 3 (all marks cleared). -/
def unmarkedStore (st : GcState) : Store :=
  (collectUnmarkedRun (markedStore st) st.boxes_start).1

/-- The condemned list of a collection of `st` (step 3). -/
def condemnedOf (st : GcState) : List (Option Nat × Nat) :=
  (collectUnmarkedRun (markedStore st) st.boxes_start).2

/-- Store after the finalize step (step 5). -/
def finalizedStore (st : GcState) : Store :=
  finalizePhase (unmarkedStore st) (condemnedOf st)

/-- Store after the re-mark (step 6: steps 1-2 repeated from scratch). -/
def remarkStore (st : GcState) : Store :=
  markPhase (finalizedStore st) st.boxes_start

/-- `collect_garbage` (`gc.rs` 304-396): bump the collection counter, mark,
resolve ephemerons, unmark survivors and condemn the rest; stop if nothing
is condemned; otherwise finalize, re-mark from scratch, and sweep. -/
def collectGarbage (st : GcState) : GcState :=
  let stc : GcState :=
    { st with collections_performed := st.collections_performed + 1 }
  if (condemnedOf st).isEmpty then { stc with store := unmarkedStore st }
  else sweep (condemnedOf st) { stc with store := remarkStore st }

/-- `force_collect` (`gc.rs` 401-406): one synchronous collection. -/
def forceCollect (st : GcState) : GcState := collectGarbage st

/-- Threshold back-off after an insufficient collection (`gc.rs` 236-244);
the `f64` arithmetic is modelled exactly over `ℚ` with truncation toward
zero on the cast back to `usize`. -/
def maybeGrowThreshold (st : GcState) : GcState :=
  if (st.threshold : ℚ) * st.used_space_frac < (st.bytes_allocated : ℚ) then
    { st with threshold := ((st.bytes_allocated : ℚ) / st.used_space_frac).floor.toNat }
  else st

/-- `insert_gcbox` (`gc.rs` 228-253): first, if the byte counter already
exceeds the threshold, collect (and possibly raise the threshold); then link
the new box at the chain head and add its size to the byte counter. -/
def insertGcbox (i : Nat) (r : Rec) (st : GcState) : GcState :=
  let st1 : GcState :=
    if st.threshold < st.bytes_allocated then maybeGrowThreshold (collectGarbage st)
    else st
  let linked : Rec := { r with next := st1.boxes_start }
  { st1 with store := (i, linked) :: st1.store,
             boxes_start := some i,
             bytes_allocated := st1.bytes_allocated + linked.size }

/-- A freshly allocated standard record (`GcBoxHeader::new`, `gc.rs` 70-75):
unmarked, root count 1 — born rooted. -/
def standardRec (size data : Nat) (children : List Nat)
    (ephs : List (Nat × Nat)) (fin : List Nat) : Rec :=
  { hdr := 1, next := none, size := size, data := data, children := children,
    ephs := ephs, isMarkedEph := false, finActions := fin }

/-- A freshly allocated ephemeron-value record (`GcBoxHeader::new_ephemeron`,
`gc.rs` 78-83): unmarked, root count 0. -/
def ephemeronRec (size data : Nat) : Rec :=
  { hdr := 0, next := none, size := size, data := data, children := [],
    ephs := [], isMarkedEph := false, finActions := [] }

/-- Dropping a strong handle (`Gc::drop` → `unroot_inner` → `dec_roots`). -/
def dropHandle (st : GcState) (i : Nat) : GcState :=
  { st with store := supdate st.store i decRootsRec }

/-- The default state (`GcConfig::default`, `gc.rs` 420-428, and empty
`GcStats` and chain). -/
def initState : GcState :=
  { store := [], boxes_start := none, bytes_allocated := 0,
    collections_performed := 0, threshold := 100,
    used_space_frac := (7 : ℚ) / 10, leak_on_drop := false }

/-- The chain as a list of record identities, walked from `boxes_start`
through the `next` links (fuel-bounded; the fuel covers any acyclic chain). -/
def chainAux : Nat → Store → Option Nat → List Nat
  | 0, _, _ => []
  | _ + 1, _, none => []
  | fuel + 1, s, some i =>
    match slookup s i with
    | none => [i]
    | some r => i :: chainAux fuel s r.next

/-- The current chain of a state. -/
def chainList (st : GcState) : List Nat :=
  chainAux (st.store.length + 1) st.store st.boxes_start

/-- `GcBoxHeader::is_alive` (`gc.rs` 124-142): scan the chain for the
record's identity; liveness is chain membership, never the mark bit. -/
def isAlive (st : GcState) (i : Nat) : Bool := decide (i ∈ chainList st)

/-- `WeakGc::value` (`weak.rs` 29-35): the payload if the record is alive,
`None` otherwise.  The payload read is modelled as the store lookup. -/
def weakValue (st : GcState) (i : Nat) : Option Nat :=
  if isAlive st i then (slookup st.store i).map (fun r => r.data) else none

/-- A `WeakPair`: a weak key reference and the identity of the owned
ephemeron-value record (`weak.rs` 69-72). -/
structure WeakPairW where
  key : Nat
  val : Nat

/-- `WeakPair::key` (`weak.rs` 87-89). -/
def weakPairKey (st : GcState) (p : WeakPairW) : Option Nat := weakValue st p.key

/-- `WeakPair::value` (`weak.rs` 92-98): the stored value if the key still
resolves, `None` otherwise; the value box is read without its own liveness
check. -/
def weakPairValue (st : GcState) (p : WeakPairW) : Option Nat :=
  if (weakValue st p.key).isSome then (slookup st.store p.val).map (fun r => r.data)
  else none

/-- A partial chain segment: from slot content `o`, following `next` links
through exactly the identities `l`, leaving the successor slot content `m`. -/
inductive ChainSeg (s : Store) : Option Nat → List Nat → Option Nat → Prop where
  | nil (o : Option Nat) : ChainSeg s o [] o
  | cons {i : Nat} {r : Rec} {l : List Nat} {m : Option Nat} :
      slookup s i = some r → ChainSeg s r.next l m → ChainSeg s (some i) (i :: l) m

/-- Well-formed state: record keys are distinct and the chain from
`boxes_start` enumerates exactly the store, in store order (allocation
prepends to both, sweeping removes from both, so this alignment is the
invariant the implementation maintains). -/
structure WF (st : GcState) : Prop where
  nodup : (st.store.map Prod.fst).Nodup
  aligned : ChainSeg st.store st.boxes_start (st.store.map Prod.fst) none

/-!
A concrete history reachable through the public API alone: allocate record 0,
allocate record 1 (both standard, no managed children), drop the handle to 1,
force a collection (it sweeps record 1; record 0 survives), then drop the
handle to 0.  Because the re-mark pass of `collect_garbage` never clears mark
bits and `sweep` leaves skipped records marked, record 0 comes out of the
first collection still marked.
-/

/-- Heap after allocating record 0 (16 bytes). -/
def scenAllocA : GcState := insertGcbox 0 (standardRec 16 100 [] [] []) initState

/-- Heap after also allocating record 1 (24 bytes). -/
def scenAllocB : GcState := insertGcbox 1 (standardRec 24 200 [] [] []) scenAllocA

/-- Heap after dropping the only handle to record 1. -/
def scenDropB : GcState := dropHandle scenAllocB 1

/-- Heap after the first forced collection: record 1 swept, record 0 kept. -/
def scenSt1 : GcState := forceCollect scenDropB

/-- Heap after dropping the only handle to record 0: record 0 now has root
count 0, no children point at it, yet its mark bit is still set. -/
def scenDropA : GcState := dropHandle scenSt1 0

/-- Claim C1: once every handle to a set of records is dropped, a single
forced collection reclaims all of them, regardless of the heap state left by
earlier collections.  The code refutes this: record 0 has root count 0, no
record references it (it is the only record and has no children), yet after
one `force_collect` it is still in the chain and its 16 bytes are still
counted, because the previous collection left its mark bit set and the
unmark-survivors walk treats the stale mark as reachability.  A second
forced collection does reclaim it. -/
theorem c1_forced_collect_misses_stale_marked :
    ((slookup scenDropA.store 0).map fun r => rootsOf r.hdr) = some 0 ∧
    ((slookup scenDropA.store 0).map fun r => r.children) = some [] ∧
    chainList scenDropA = [0] ∧
    chainList (forceCollect scenDropA) = [0] ∧
    (forceCollect scenDropA).bytes_allocated = 16 ∧
    chainList (forceCollect (forceCollect scenDropA)) = [] := by decide

/-- Claim C2: when `collect_garbage` returns, every record still in the chain
has its mark bit clear, including survivors of a collection whose condemned
list was non-empty.  The code refutes this: collecting `scenDropB` condemns
and sweeps record 1, and the surviving record 0 — re-marked by the pass that
precedes the sweep and never unmarked afterwards — is left in the chain with
its mark bit set. -/
theorem c2_survivor_left_marked :
    condemnedOf scenDropB = [(none, 1)] ∧
    chainList (collectGarbage scenDropB) = [0] ∧
    ((slookup (collectGarbage scenDropB).store 0).map fun r => markedOf r.hdr) =
      some true := by decide

/-- Claim C6: two successive forced collections with nothing in between
perform no finalization or deallocation the second time.  The code refutes
this: starting from `scenDropA` (reachable via the public API), the first
`force_collect` is a no-op apart from clearing the stale mark (record 0
appears marked, so nothing is condemned), and the second `force_collect`
then condemns and deallocates record 0, changing both the chain and the
byte counter. -/
theorem c6_second_forced_collect_not_noop :
    chainList (forceCollect scenDropA) = [0] ∧
    (forceCollect scenDropA).bytes_allocated = 16 ∧
    chainList (forceCollect (forceCollect scenDropA)) = [] ∧
    (forceCollect (forceCollect scenDropA)).bytes_allocated = 0 := by decide

/-- A heap holding 120 counted bytes against the default threshold of 100,
built by two allocations of 60 bytes each. -/
def scenC3 : GcState :=
  insertGcbox 1 (standardRec 60 0 [] [] [])
    (insertGcbox 0 (standardRec 60 0 [] [] []) initState)

/-- Claim C3, counterexample: the claim says a collection fires whenever the
byte counter updated by the new allocation exceeds the threshold.  Here the second
allocation raises the counter to 120 > 100, yet no collection runs, because
`insert_gcbox` performs the threshold check against the pre-allocation
counter (60 ≤ 100) before linking the new record. -/
theorem c3_trigger_counterexample :
    scenC3.bytes_allocated = 120 ∧ scenC3.threshold = 100 ∧
    scenC3.collections_performed = 0 ∧ chainList scenC3 = [1, 0] := by decide

/-- `sweepStep` never touches the collection counter. -/
theorem sweepStep_collections (st : GcState) (e : Option Nat × Nat) :
    (sweepStep st e).collections_performed = st.collections_performed := by
  unfold sweepStep
  cases h : slookup st.store e.2 with
  | none => rfl
  | some r =>
    by_cases hm : markedOf r.hdr = true
    · simp [hm]
    · simp only [hm, if_neg, Bool.not_eq_true] at *
      simp [hm, writeSlot]
      cases e.1 <;> rfl

/-- Folding `sweepStep` never touches the collection counter. -/
theorem sweepFold_collections (l : List (Option Nat × Nat)) (st : GcState) :
    (l.foldl sweepStep st).collections_performed = st.collections_performed := by
  induction l generalizing st with
  | nil => rfl
  | cons e t ih => rw [List.foldl_cons, ih, sweepStep_collections]

/-- `sweep` never touches the collection counter. -/
theorem sweep_collections (c : List (Option Nat × Nat)) (st : GcState) :
    (sweep c st).collections_performed = st.collections_performed :=
  sweepFold_collections _ _

/-- Every collection increments the collection counter by exactly one. -/
theorem collectGarbage_collections (st : GcState) :
    (collectGarbage st).collections_performed = st.collections_performed + 1 := by
  unfold collectGarbage
  by_cases h : (condemnedOf st).isEmpty = true
  · simp [h]
  · simp [h, sweep_collections]

/-- The threshold back-off never touches the collection counter. -/
theorem maybeGrowThreshold_collections (st : GcState) :
    (maybeGrowThreshold st).collections_performed = st.collections_performed := by
  unfold maybeGrowThreshold
  by_cases h : (st.threshold : ℚ) * st.used_space_frac < (st.bytes_allocated : ℚ) <;>
    simp [h]

/-- Claim C3 (amended): on every allocation the threshold check is performed
first, against the byte counter as it stood before this allocation; a
collection triggered by the check runs before the new record is linked and
before its bytes are counted; only afterwards is the record appended at the
chain head and its size added.  The collection fires exactly when the
pre-allocation byte counter exceeds the threshold. -/
theorem c3_insert_checks_before_linking (i : Nat) (r : Rec) (st : GcState) :
    (st.bytes_allocated ≤ st.threshold →
      insertGcbox i r st =
        { st with store := (i, { r with next := st.boxes_start }) :: st.store,
                  boxes_start := some i,
                  bytes_allocated := st.bytes_allocated + r.size }) ∧
    (st.threshold < st.bytes_allocated →
      insertGcbox i r st =
        (let st1 := maybeGrowThreshold (collectGarbage st)
         { st1 with store := (i, { r with next := st1.boxes_start }) :: st1.store,
                    boxes_start := some i,
                    bytes_allocated := st1.bytes_allocated + r.size }) ∧
      (insertGcbox i r st).collections_performed = st.collections_performed + 1) := by
  constructor
  · intro h
    have h' : ¬ st.threshold < st.bytes_allocated := Nat.not_lt.mpr h
    simp [insertGcbox, h']
  · intro h
    refine ⟨by simp [insertGcbox, h], ?_⟩
    simp [insertGcbox, h, maybeGrowThreshold_collections, collectGarbage_collections]

/-- Witness for the amended Claim C3 at a concrete allocation into the
default (empty, below-threshold) state. -/
theorem c3_insert_checks_before_linking_wit :
    initState.bytes_allocated ≤ initState.threshold ∧
    insertGcbox 0 (standardRec 16 7 [] [] []) initState =
      { initState with
          store := (0, { standardRec 16 7 [] [] [] with
                           next := initState.boxes_start }) :: initState.store,
          boxes_start := some 0,
          bytes_allocated :=
            initState.bytes_allocated + (standardRec 16 7 [] [] []).size } :=
  ⟨by decide, (c3_insert_checks_before_linking 0 _ initState).1 (by decide)⟩

/-- Claim C9: incrementing a header's root count below the maximum raises the
count by exactly one and leaves the mark bit unchanged; at the maximum the
operation aborts (modelled as `none`) instead of wrapping into the mark bit. -/
theorem c9_inc_roots_saturates (w : Nat) :
    (rootsOf w < ROOTS_MAX →
      incRootsW w = some (w + 1) ∧
      rootsOf (w + 1) = rootsOf w + 1 ∧
      markedOf (w + 1) = markedOf w) ∧
    (rootsOf w = ROOTS_MAX → incRootsW w = none) := by
  constructor
  · intro h
    refine ⟨by simp [incRootsW, h], ?_, ?_⟩
    · have := h
      unfold rootsOf ROOTS_MAX ROOTS_MASK MARK_MASK at *
      omega
    · have := h
      unfold markedOf rootsOf ROOTS_MAX ROOTS_MASK MARK_MASK at *
      rw [decide_eq_decide]
      omega
  · intro h
    simp [incRootsW, h]

/-- Witness for Claim C9: a header word with root count 5 and the mark bit
set increments to root count 6 with the mark bit still set. -/
theorem c9_inc_roots_saturates_wit :
    rootsOf (2 ^ 63 + 5) < ROOTS_MAX ∧
    incRootsW (2 ^ 63 + 5) = some (2 ^ 63 + 6) ∧
    markedOf (2 ^ 63 + 6) = markedOf (2 ^ 63 + 5) :=
  ⟨by decide, ((c9_inc_roots_saturates (2 ^ 63 + 5)).1 (by decide)).1,
    ((c9_inc_roots_saturates (2 ^ 63 + 5)).1 (by decide)).2.2⟩

/-! Basic facts about the store operations. -/

/-- Structure eta for records. -/
theorem rec_eta (r : Rec) : ({ r with hdr := r.hdr } : Rec) = r := rfl

/-- A lookup fails exactly when the key is absent. -/
theorem slookup_eq_none {s : Store} {i : Nat} :
    slookup s i = none ↔ i ∉ s.map Prod.fst := by
  induction s with
  | nil => simp [slookup]
  | cons kr t ih =>
    obtain ⟨k, r⟩ := kr
    by_cases h : k = i <;> simp [slookup, h, ih] <;> omega

/-- A lookup succeeds exactly when the key is present. -/
theorem slookup_isSome_iff {s : Store} {i : Nat} :
    (slookup s i).isSome = true ↔ i ∈ s.map Prod.fst := by
  rcases h : slookup s i with _ | r
  · simpa [h] using slookup_eq_none.mp h
  · simp only [h, Option.isSome_some, true_iff]
    by_contra hmem
    rw [slookup_eq_none.mpr hmem] at h
    cases h

/-- Updating a key rewrites exactly its looked-up record. -/
theorem slookup_supdate_same (s : Store) (i : Nat) (f : Rec → Rec) :
    slookup (supdate s i f) i = (slookup s i).map f := by
  induction s with
  | nil => rfl
  | cons kr t ih =>
    obtain ⟨k, r⟩ := kr
    by_cases h : k = i <;> simp [slookup, supdate, h, ih]

/-- Updating one key leaves every other lookup unchanged. -/
theorem slookup_supdate_ne (s : Store) {i j : Nat} (f : Rec → Rec) (h : j ≠ i) :
    slookup (supdate s i f) j = slookup s j := by
  induction s with
  | nil => rfl
  | cons kr t ih =>
    obtain ⟨k, r⟩ := kr
    by_cases hk : k = i
    · subst hk
      simp [slookup, supdate, Ne.symm h]
    · by_cases hj : k = j <;> simp [slookup, supdate, hk, hj, h, ih]

/-- Erasing one key leaves every other lookup unchanged. -/
theorem slookup_serase_ne (s : Store) {i j : Nat} (h : j ≠ i) :
    slookup (serase s i) j = slookup s j := by
  induction s with
  | nil => rfl
  | cons kr t ih =>
    obtain ⟨k, r⟩ := kr
    by_cases hk : k = i
    · subst hk
      simp [slookup, serase, Ne.symm h]
    · by_cases hj : k = j <;> simp [slookup, serase, hk, hj, h, ih]

/-- Updates do not change the key sequence. -/
theorem supdate_map_fst (s : Store) (i : Nat) (f : Rec → Rec) :
    (supdate s i f).map Prod.fst = s.map Prod.fst := by
  induction s with
  | nil => rfl
  | cons kr t ih =>
    obtain ⟨k, r⟩ := kr
    by_cases h : k = i <;> simp [supdate, h, ih]

/-- Updates do not change the store length. -/
theorem supdate_length (s : Store) (i : Nat) (f : Rec → Rec) :
    (supdate s i f).length = s.length := by
  have := congrArg List.length (supdate_map_fst s i f)
  simpa using this

/-- An update whose function fixes the looked-up record is the identity. -/
theorem supdate_self {s : Store} {i : Nat} {f : Rec → Rec}
    (h : ∀ r, slookup s i = some r → f r = r) : supdate s i f = s := by
  induction s with
  | nil => rfl
  | cons kr t ih =>
    obtain ⟨k, r⟩ := kr
    by_cases hk : k = i
    · subst hk
      have := h r (by simp [slookup])
      simp [supdate, this]
    · have ht : ∀ r', slookup t i = some r' → f r' = r' := by
        intro r' hr'
        exact h r' (by simpa [slookup, hk] using hr')
      simp [supdate, hk, ih ht]

/-- An update at an absent key is the identity. -/
theorem supdate_not_mem {s : Store} {i : Nat} (f : Rec → Rec)
    (h : i ∉ s.map Prod.fst) : supdate s i f = s :=
  supdate_self (fun r hr => by rw [slookup_eq_none.mpr h] at hr; cases hr)

/-- Lookup in a concatenation, left key present. -/
theorem slookup_append_left {a : Store} (b : Store) {i : Nat}
    (h : i ∈ a.map Prod.fst) : slookup (a ++ b) i = slookup a i := by
  induction a with
  | nil => simp at h
  | cons kr t ih =>
    obtain ⟨k, r⟩ := kr
    by_cases hk : k = i
    · simp [slookup, hk]
    · simp only [List.map_cons, List.mem_cons] at h
      rcases h with h | h
      · exact absurd h.symm hk
      · simp [slookup, hk, ih h]

/-- Lookup in a concatenation, left key absent. -/
theorem slookup_append_right {a : Store} (b : Store) {i : Nat}
    (h : i ∉ a.map Prod.fst) : slookup (a ++ b) i = slookup b i := by
  induction a with
  | nil => rfl
  | cons kr t ih =>
    obtain ⟨k, r⟩ := kr
    simp only [List.map_cons, List.mem_cons, not_or] at h
    obtain ⟨h1, h2⟩ := h
    simp [slookup, Ne.symm h1, ih h2]

/-- An update at a key of the left part stays in the left part. -/
theorem supdate_append_left {a : Store} (b : Store) {i : Nat} (f : Rec → Rec)
    (h : i ∈ a.map Prod.fst) : supdate (a ++ b) i f = supdate a i f ++ b := by
  induction a with
  | nil => simp at h
  | cons kr t ih =>
    obtain ⟨k, r⟩ := kr
    by_cases hk : k = i
    · simp [supdate, hk]
    · simp only [List.map_cons, List.mem_cons] at h
      rcases h with h | h
      · exact absurd h.symm hk
      · simp [supdate, hk, ih h]

/-- Erasing the key of the middle record of a concatenation removes it. -/
theorem serase_append_mid {a : Store} (b : Store) {i : Nat} (r : Rec)
    (h : i ∉ a.map Prod.fst) : serase (a ++ (i, r) :: b) i = a ++ b := by
  induction a with
  | nil => simp [serase]
  | cons kr t ih =>
    obtain ⟨k, q⟩ := kr
    simp only [List.map_cons, List.mem_cons, not_or] at h
    obtain ⟨h1, h2⟩ := h
    simp [serase, Ne.symm h1, ih h2]

/-! Projections of the store that quotient out the header word or the chain
link, used to track which parts of the store each collector phase can
change. -/

/-- The store with every header word zeroed: what a phase that only touches
mark bits and root counts preserves. -/
def stripHdr (s : Store) : Store := s.map (fun kr => (kr.1, { kr.2 with hdr := 0 }))

/-- The store with every chain link cleared: what the sweep's splicing
preserves on the records it keeps. -/
def stripNext (s : Store) : Store := s.map (fun kr => (kr.1, { kr.2 with next := none }))

/-- Header-stripping preserves the key sequence. -/
theorem stripHdr_map_fst (s : Store) : (stripHdr s).map Prod.fst = s.map Prod.fst := by
  simp [stripHdr, Function.comp]

/-- Link-stripping preserves the key sequence. -/
theorem stripNext_map_fst (s : Store) : (stripNext s).map Prod.fst = s.map Prod.fst := by
  simp [stripNext, Function.comp]

/-- Lookup in a header-stripped store. -/
theorem slookup_stripHdr (s : Store) (i : Nat) :
    slookup (stripHdr s) i = (slookup s i).map (fun r => { r with hdr := 0 }) := by
  induction s with
  | nil => rfl
  | cons kr t ih =>
    obtain ⟨k, r⟩ := kr
    by_cases h : k = i
    · simp [slookup, stripHdr, h]
    · simpa [slookup, stripHdr, h] using ih

/-- Lookup in a link-stripped store. -/
theorem slookup_stripNext (s : Store) (i : Nat) :
    slookup (stripNext s) i = (slookup s i).map (fun r => { r with next := none }) := by
  induction s with
  | nil => rfl
  | cons kr t ih =>
    obtain ⟨k, r⟩ := kr
    by_cases h : k = i
    · simp [slookup, stripNext, h]
    · simpa [slookup, stripNext, h] using ih

/-- Pointwise consequence of header-strip equality: every lookup agrees up to
the header word. -/
theorem strip_lookup_of_stripHdr {s s' : Store} (h : stripHdr s' = stripHdr s)
    (i : Nat) :
    (slookup s' i).map (fun r => { r with hdr := 0 }) =
      (slookup s i).map (fun r => { r with hdr := 0 }) := by
  rw [← slookup_stripHdr, ← slookup_stripHdr, h]

/-- Header-strip equality preserves the key sequence. -/
theorem map_fst_of_stripHdr {s s' : Store} (h : stripHdr s' = stripHdr s) :
    s'.map Prod.fst = s.map Prod.fst := by
  rw [← stripHdr_map_fst s', ← stripHdr_map_fst s, h]

/-- Link-strip equality preserves the key sequence. -/
theorem map_fst_of_stripNext {s s' : Store} (h : stripNext s' = stripNext s) :
    s'.map Prod.fst = s.map Prod.fst := by
  rw [← stripNext_map_fst s', ← stripNext_map_fst s, h]

/-- Header-strip equality preserves every record's chain link. -/
theorem next_lookup_of_stripHdr {s s' : Store} (h : stripHdr s' = stripHdr s)
    (i : Nat) :
    (slookup s' i).map (fun r => r.next) = (slookup s i).map (fun r => r.next) := by
  have hp := strip_lookup_of_stripHdr h i
  cases h1 : slookup s' i with
  | none =>
    cases h2 : slookup s i with
    | none => rfl
    | some r2 => rw [h1, h2] at hp; exact absurd hp (by simp)
  | some r1 =>
    cases h2 : slookup s i with
    | none => rw [h1, h2] at hp; exact absurd hp (by simp)
    | some r2 =>
      rw [h1, h2] at hp
      simp only [Option.map_some', Option.some.injEq] at hp ⊢
      have hq := congrArg Rec.next hp
      exact hq

/-! Chain segments. -/

/-- Concatenating two chain segments. -/
theorem ChainSeg.append_intro {s : Store} {o mid m : Option Nat}
    {a b : List Nat} (h1 : ChainSeg s o a mid) (h2 : ChainSeg s mid b m) :
    ChainSeg s o (a ++ b) m := by
  induction h1 with
  | nil => exact h2
  | cons hl _ ih => exact ChainSeg.cons hl (ih h2)

/-- Splitting a chain segment at a list split. -/
theorem ChainSeg.append_elim {s : Store} {o m : Option Nat} {a b : List Nat}
    (h : ChainSeg s o (a ++ b) m) :
    ∃ mid, ChainSeg s o a mid ∧ ChainSeg s mid b m := by
  induction a generalizing o with
  | nil => exact ⟨o, ChainSeg.nil o, h⟩
  | cons i t ih =>
    cases h with
    | cons hl htail =>
      obtain ⟨mid, h1, h2⟩ := ih htail
      exact ⟨mid, ChainSeg.cons hl h1, h2⟩

/-- Inverting a non-empty chain segment. -/
theorem ChainSeg.cons_elim {s : Store} {o m : Option Nat} {i : Nat}
    {l : List Nat} (h : ChainSeg s o (i :: l) m) :
    o = some i ∧ ∃ r, slookup s i = some r ∧ ChainSeg s r.next l m := by
  cases h with
  | cons hl htail => exact ⟨rfl, _, hl, htail⟩

/-- A chain segment transfers to any store agreeing on the chain links of its
members. -/
theorem ChainSeg.frame_next {s s' : Store} {o m : Option Nat} {l : List Nat}
    (hf : ∀ j ∈ l, (slookup s' j).map (fun r => r.next) =
        (slookup s j).map (fun r => r.next))
    (h : ChainSeg s o l m) : ChainSeg s' o l m := by
  induction h with
  | nil => exact ChainSeg.nil _
  | cons hl htail ih =>
    rename_i i r l' m'
    have hj := hf i (by simp)
    rw [hl] at hj
    rcases h' : slookup s' i with _ | r'
    · rw [h'] at hj; cases hj
    · rw [h'] at hj
      simp only [Option.map_some'] at hj
      have hn : r'.next = r.next := by injection hj
      refine ChainSeg.cons h' ?_
      rw [hn]
      exact ih (fun j hjl => hf j (by simp [hjl]))

/-- A chain segment transfers along header-strip equality. -/
theorem ChainSeg.of_stripHdr {s s' : Store} {o m : Option Nat} {l : List Nat}
    (hs : stripHdr s' = stripHdr s) (h : ChainSeg s o l m) : ChainSeg s' o l m :=
  h.frame_next (fun j _ => next_lookup_of_stripHdr hs j)

/-- The executable chain walk agrees with any chain-segment derivation, given
enough fuel. -/
theorem chainAux_of_seg {s : Store} {o : Option Nat} {l : List Nat}
    (h : ChainSeg s o l none) : ∀ fuel, l.length ≤ fuel → chainAux fuel s o = l := by
  induction l generalizing o with
  | nil =>
    intro fuel _
    cases h
    cases fuel <;> rfl
  | cons i t ih =>
    intro fuel hfuel
    obtain ⟨ho, r, hl, htail⟩ := h.cons_elim
    subst ho
    cases fuel with
    | zero => simp at hfuel
    | succ fuel' =>
      simp only [chainAux, hl]
      rw [ih htail fuel' (by simpa using hfuel)]

/-- In a well-formed state the chain is exactly the key sequence. -/
theorem chainList_eq_keys {st : GcState} (h : WF st) :
    chainList st = st.store.map Prod.fst := by
  refine chainAux_of_seg h.aligned _ ?_
  simp

/-! Header-word facts. -/

/-- Marking sets the mark bit. -/
theorem markedOf_markW (w : Nat) : markedOf (markW w) = true := by
  unfold markW
  by_cases h : markedOf w = true
  · rw [if_pos h]; exact h
  · rw [if_neg h]
    unfold markedOf at *
    simp only [decide_eq_true_eq]
    unfold MARK_MASK
    omega

/-- Marking preserves the root count. -/
theorem rootsOf_markW (w : Nat) : rootsOf (markW w) = rootsOf w := by
  unfold markW
  by_cases h : markedOf w = true
  · rw [if_pos h]
  · rw [if_neg h]
    unfold rootsOf
    exact Nat.add_mod_right w MARK_MASK

/-- Unmarking clears the mark bit. -/
theorem markedOf_unmarkW (w : Nat) : markedOf (unmarkW w) = false := by
  unfold markedOf unmarkW
  simp only [decide_eq_false_iff_not, not_le]
  exact Nat.mod_lt _ (by unfold MARK_MASK; positivity)

/-- Unmarking preserves the root count. -/
theorem rootsOf_unmarkW (w : Nat) : rootsOf (unmarkW w) = rootsOf w := by
  unfold rootsOf unmarkW
  exact Nat.mod_mod_of_dvd w dvd_rfl

/-- Unmarking an unmarked record is the identity. -/
theorem unmarkRec_of_unmarked {r : Rec} (h : markedOf r.hdr = false) :
    unmarkRec r = r := by
  unfold unmarkRec unmarkW
  have heq : r.hdr % MARK_MASK = r.hdr := by
    refine Nat.mod_eq_of_lt ?_
    unfold markedOf at h
    simp only [decide_eq_false_iff_not, not_le] at h
    exact h
  rw [heq]

/-! Observations on a store: per-record mark bit and root count. -/

/-- The mark bit of the record at an identity (`false` when absent). -/
def isMarkedAt (s : Store) (i : Nat) : Bool :=
  ((slookup s i).map (fun r => markedOf r.hdr)).getD false

/-- The root count of the record at an identity (`0` when absent). -/
def rootsAt (s : Store) (i : Nat) : Nat :=
  ((slookup s i).map (fun r => rootsOf r.hdr)).getD 0

/-- Generic preservation of a reflexive transitive store relation by a left
fold. -/
theorem foldl_pres {α : Type} (P : Store → Store → Prop)
    (hrefl : ∀ s, P s s) (htrans : ∀ a b c, P a b → P b c → P a c)
    (step : Store → α → Store) (hstep : ∀ s a, P s (step s a)) :
    ∀ (l : List α) (s : Store), P s (l.foldl step s) := by
  intro l
  induction l with
  | nil => intro s; exact hrefl s
  | cons a t ih =>
    intro s
    exact htrans _ _ _ (hstep s a) (ih (step s a))

/-- What a marking phase does to the store: headers may change, but only by
setting mark bits — the stripped store, every set mark, and every root count
are preserved. -/
def MarkEvolve (s s' : Store) : Prop :=
  stripHdr s' = stripHdr s ∧
  (∀ j, isMarkedAt s j = true → isMarkedAt s' j = true) ∧
  (∀ j, rootsAt s' j = rootsAt s j)

/-- `MarkEvolve` is reflexive. -/
theorem MarkEvolve.rfl (s : Store) : MarkEvolve s s :=
  ⟨Eq.refl _, fun _ h => h, fun _ => Eq.refl _⟩

/-- `MarkEvolve` is transitive. -/
theorem MarkEvolve.trans {a b c : Store} (h1 : MarkEvolve a b)
    (h2 : MarkEvolve b c) : MarkEvolve a c :=
  ⟨h2.1.trans h1.1, fun j hj => h2.2.1 j (h1.2.1 j hj),
    fun j => (h2.2.2 j).trans (h1.2.2 j)⟩

/-- An update whose function only rewrites the header preserves the stripped
store. -/
theorem stripHdr_supdate {s : Store} {i : Nat} {f : Rec → Rec}
    (hf : ∀ r, ({ f r with hdr := 0 } : Rec) = { r with hdr := 0 }) :
    stripHdr (supdate s i f) = stripHdr s := by
  induction s with
  | nil => rfl
  | cons kr t ih =>
    obtain ⟨k, r⟩ := kr
    by_cases h : k = i
    · simp [supdate, stripHdr, h, hf r]
    · simpa [supdate, stripHdr, h] using ih

/-- Marking one record is a marking evolution. -/
theorem markEvolve_supdate_markRec (s : Store) (i : Nat) :
    MarkEvolve s (supdate s i markRec) := by
  refine ⟨stripHdr_supdate (fun r => Eq.refl _), ?_, ?_⟩
  · intro j hj
    by_cases h : j = i
    · subst h
      unfold isMarkedAt at *
      rw [slookup_supdate_same]
      cases hl : slookup s j with
      | none => rw [hl] at hj; simp at hj
      | some r =>
        rw [hl] at hj
        simp only [Option.map_some', Option.getD_some] at hj ⊢
        simp [markRec, markedOf_markW]
    · unfold isMarkedAt at *
      rw [slookup_supdate_ne _ _ h]
      exact hj
  · intro j
    by_cases h : j = i
    · subst h
      unfold rootsAt
      rw [slookup_supdate_same]
      cases hl : slookup s j with
      | none => simp
      | some r => simp [markRec, rootsOf_markW]
    · unfold rootsAt
      rw [slookup_supdate_ne _ _ h]

/-- Tracing is a marking evolution. -/
theorem traceInner_markEvolve :
    ∀ (fuel : Nat) (s : Store) (i : Nat), MarkEvolve s (traceInner fuel s i) := by
  intro fuel
  induction fuel with
  | zero => intro s i; exact MarkEvolve.rfl s
  | succ fuel ih =>
    intro s i
    unfold traceInner
    cases h : slookup s i with
    | none => exact MarkEvolve.rfl s
    | some r =>
      by_cases hm : markedOf r.hdr = true
      · simp only [hm, if_true]
        exact MarkEvolve.rfl s
      · simp only [Bool.not_eq_true] at hm
        simp only [hm, Bool.false_eq_true, if_false]
        exact MarkEvolve.trans (markEvolve_supdate_markRec s i)
          (foldl_pres MarkEvolve MarkEvolve.rfl (fun _ _ _ => MarkEvolve.trans)
            _ (fun s' c => ih s' c) r.children _)

/-- The initial-mark walk is a marking evolution of the store. -/
theorem initialMarkAux_markEvolve :
    ∀ (fuel : Nat) (s : Store) (o : Option Nat) (q : List (Nat × Nat)),
      MarkEvolve s (initialMarkAux fuel s o q).1 := by
  intro fuel
  induction fuel with
  | zero => intro s o q; exact MarkEvolve.rfl s
  | succ fuel ih =>
    intro s o q
    cases o with
    | none => exact MarkEvolve.rfl s
    | some i =>
      unfold initialMarkAux
      cases h : slookup s i with
      | none => exact MarkEvolve.rfl s
      | some r =>
        by_cases hr : 0 < rootsOf r.hdr
        · simp only [hr, if_true]
          exact MarkEvolve.trans (traceInner_markEvolve _ s i) (ih _ _ _)
        · simp only [hr, if_false]
          exact ih _ _ _

/-- The ephemeron loop is a marking evolution of the store. -/
theorem processEphAux_markEvolve :
    ∀ (fuel : Nat) (s : Store) (q : List (Nat × Nat)) (idx : Nat),
      MarkEvolve s (processEphAux fuel s q idx) := by
  intro fuel
  induction fuel with
  | zero => intro s q idx; exact MarkEvolve.rfl s
  | succ fuel ih =>
    intro s q idx
    unfold processEphAux
    split
    · dsimp only
      split
      · split
        · exact MarkEvolve.trans (traceInner_markEvolve _ _ _) (ih _ _ _)
        · exact ih _ _ _
      · exact ih _ _ _
    · exact MarkEvolve.rfl _

/-- The whole mark phase (initial mark plus ephemeron resolution) is a
marking evolution of the store. -/
theorem markPhase_markEvolve (s : Store) (head : Option Nat) :
    MarkEvolve s (markPhase s head) :=
  MarkEvolve.trans (initialMarkAux_markEvolve _ s head [])
    (processEphAux_markEvolve _ _ _ _)

/-- `inc_roots` only rewrites the header. -/
theorem stripHdr_incRootsSat (r : Rec) :
    ({ incRootsSat r with hdr := 0 } : Rec) = { r with hdr := 0 } := rfl

/-- Finalizing one record only rewrites headers. -/
theorem stripHdr_finalizeGlue (s : Store) (i : Nat) :
    stripHdr (finalizeGlue s i) = stripHdr s := by
  unfold finalizeGlue
  cases h : slookup s i with
  | none => rfl
  | some r =>
    refine foldl_pres (fun a b => stripHdr b = stripHdr a)
      (fun _ => Eq.refl _) (fun _ _ _ h1 h2 => h2.trans h1) _ ?_ r.finActions s
    intro s' t
    exact stripHdr_supdate stripHdr_incRootsSat

/-- The finalize phase only rewrites headers. -/
theorem stripHdr_finalizePhase (s : Store) (c : List (Option Nat × Nat)) :
    stripHdr (finalizePhase s c) = stripHdr s := by
  unfold finalizePhase
  refine foldl_pres (fun a b => stripHdr b = stripHdr a)
    (fun _ => Eq.refl _) (fun _ _ _ h1 h2 => h2.trans h1) _ ?_ c s
  intro s' e
  exact stripHdr_finalizeGlue s' e.2

/-! Marking completeness for rooted records. -/

/-- Tracing a present record marks it. -/
theorem isMarkedAt_traceInner_self {s : Store} {i : Nat} (fuel : Nat)
    (h : (slookup s i).isSome = true) :
    isMarkedAt (traceInner (fuel + 1) s i) i = true := by
  unfold traceInner
  cases hl : slookup s i with
  | none => rw [hl] at h; contradiction
  | some r =>
    dsimp only
    by_cases hm : markedOf r.hdr = true
    · rw [if_pos hm]
      unfold isMarkedAt
      rw [hl]
      simpa using hm
    · rw [if_neg hm]
      have hstart : isMarkedAt (supdate s i markRec) i = true := by
        unfold isMarkedAt
        rw [slookup_supdate_same, hl]
        simp [markRec, markedOf_markW]
      have hme : MarkEvolve (supdate s i markRec)
          (r.children.foldl (fun acc c => traceInner fuel acc c)
            (supdate s i markRec)) :=
        foldl_pres MarkEvolve MarkEvolve.rfl (fun _ _ _ => MarkEvolve.trans)
          _ (fun s' c => traceInner_markEvolve fuel s' c) r.children _
      exact hme.2.1 i hstart

/-- The root count observed at a present record. -/
theorem rootsAt_of_lookup {s : Store} {i : Nat} {r : Rec}
    (h : slookup s i = some r) : rootsAt s i = rootsOf r.hdr := by
  unfold rootsAt
  rw [h]
  rfl

/-- The initial-mark walk marks every chain member whose root count is
positive at walk time. -/
theorem initialMarkAux_marks_rooted :
    ∀ (l : List Nat) (s : Store) (o : Option Nat) (q : List (Nat × Nat))
      (fuel : Nat), ChainSeg s o l none → l.length < fuel →
      ∀ j ∈ l, 0 < rootsAt s j →
      isMarkedAt (initialMarkAux fuel s o q).1 j = true := by
  intro l
  induction l with
  | nil => intro s o q fuel _ _ j hj; simp at hj
  | cons i t ih =>
    intro s o q fuel hseg hfuel j hj hr
    obtain ⟨ho, r, hl, htail⟩ := hseg.cons_elim
    subst ho
    cases fuel with
    | zero => simp at hfuel
    | succ fuel' =>
      unfold initialMarkAux
      rw [hl]
      dsimp only
      by_cases hroots : 0 < rootsOf r.hdr
      · rw [if_pos hroots]
        have hme : MarkEvolve s (traceInnerTop s i) := by
          unfold traceInnerTop
          exact traceInner_markEvolve _ s i
        have hnext : (match slookup (traceInnerTop s i) i with
            | none => none
            | some r1 => r1.next) = r.next := by
          have hn := next_lookup_of_stripHdr hme.1 i
          rw [hl] at hn
          cases hl1 : slookup (traceInnerTop s i) i with
          | none => rw [hl1] at hn; exact absurd hn (by simp)
          | some r1 =>
            rw [hl1] at hn
            simp only [Option.map_some', Option.some.injEq] at hn
            simpa using hn
        rw [hnext]
        have hseg1 : ChainSeg (traceInnerTop s i) r.next t none :=
          htail.frame_next (fun j' _ => next_lookup_of_stripHdr hme.1 j')
        rcases List.mem_cons.mp hj with hji | hjt
        · have hmarked : isMarkedAt (traceInnerTop s i) i = true := by
            unfold traceInnerTop
            exact isMarkedAt_traceInner_self _ (by rw [hl]; rfl)
          rw [hji]
          exact (initialMarkAux_markEvolve fuel' _ r.next (q ++ r.ephs)).2.1 i hmarked
        · have hr1 : 0 < rootsAt (traceInnerTop s i) j := by
            rw [hme.2.2 j]; exact hr
          exact ih (traceInnerTop s i) r.next (q ++ r.ephs) fuel' hseg1
            (by simpa using Nat.lt_of_succ_lt_succ hfuel) j hjt hr1
      · rw [if_neg hroots]
        rcases List.mem_cons.mp hj with hji | hjt
        · subst hji
          rw [rootsAt_of_lookup hl] at hr
          exact absurd hr hroots
        · exact ih s r.next q fuel' htail
            (by simpa using Nat.lt_of_succ_lt_succ hfuel) j hjt hr

/-- The whole mark phase marks every chain member whose root count is
positive when the phase starts. -/
theorem markPhase_marks_rooted {s : Store} {head : Option Nat} {l : List Nat}
    (hseg : ChainSeg s head l none) (hlen : l.length ≤ s.length)
    {j : Nat} (hj : j ∈ l) (hr : 0 < rootsAt s j) :
    isMarkedAt (markPhase s head) j = true := by
  unfold markPhase processEphRun
  have h1 : isMarkedAt (initialMarkRun s head).1 j = true := by
    unfold initialMarkRun
    exact initialMarkAux_marks_rooted l s head [] (s.length + 1) hseg
      (Nat.lt_succ_of_le hlen) j hj hr
  exact (processEphAux_markEvolve _ _ _ _).2.1 j h1

/-! Characterization of `collect_unmarked_nodes`: condemned entries are
exactly the `P`-selected chain members paired with their chain-predecessor
slot, in chain order. -/

/-- The condemned entries produced by walking a key sequence: each selected
key is paired with the slot holding it — the walk-entry slot for the first
key, the predecessor's `next` cell for the others. -/
def condemnKeys (P : Nat → Bool) : Option Nat → List Nat → List (Option Nat × Nat)
  | _, [] => []
  | prev, k :: t =>
    if P k then (prev, k) :: condemnKeys P (some k) t else condemnKeys P (some k) t

/-- The slot left in hand after walking a key sequence. -/
def lastSlot (prev : Option Nat) : List Nat → Option Nat
  | [] => prev
  | k :: t => lastSlot (some k) t

/-- Unmark the records at the given keys, in order. -/
def unmarkKeys (s : Store) (l : List Nat) : Store :=
  l.foldl (fun acc i => supdate acc i unmarkRec) s

/-- `condemnKeys` only consults the selector on the walked keys. -/
theorem condemnKeys_congr {P Q : Nat → Bool} :
    ∀ (l : List Nat) (o : Option Nat), (∀ k ∈ l, P k = Q k) →
      condemnKeys P o l = condemnKeys Q o l := by
  intro l
  induction l with
  | nil => intro o _; rfl
  | cons k t ih =>
    intro o h
    have hk : P k = Q k := h k (by simp)
    unfold condemnKeys
    rw [hk, ih (some k) (fun k' hk' => h k' (by simp [hk']))]

/-- The condemned identities are the selected keys. -/
theorem condemnKeys_map_snd (P : Nat → Bool) :
    ∀ (l : List Nat) (o : Option Nat),
      (condemnKeys P o l).map Prod.snd = l.filter P := by
  intro l
  induction l with
  | nil => intro o; rfl
  | cons k t ih =>
    intro o
    unfold condemnKeys
    by_cases h : P k = true
    · rw [if_pos h]
      simp [h, ih (some k)]
    · rw [if_neg h]
      simp only [Bool.not_eq_true] at h
      simp [h, ih (some k)]

/-- Peeling the last walked key off `condemnKeys`. -/
theorem condemnKeys_append (P : Nat → Bool) :
    ∀ (xs : List Nat) (k : Nat) (prev : Option Nat),
      condemnKeys P prev (xs ++ [k]) =
        condemnKeys P prev xs ++
          (if P k then [(lastSlot prev xs, k)] else []) := by
  intro xs
  induction xs with
  | nil =>
    intro k prev
    by_cases h : P k = true <;> simp [condemnKeys, lastSlot, h]
  | cons x t ih =>
    intro k prev
    show condemnKeys P prev (x :: (t ++ [k])) = _
    by_cases h : P x = true <;>
      simp [condemnKeys, lastSlot, h, ih k (some x)]

/-- The unmark/condemn walk computed on any chain: it unmarks every chain
member and returns the unmarked chain members with their predecessor slots,
in discovery order. -/
theorem collectUnmarkedAux_spec :
    ∀ (l : List Nat) (s : Store) (o slot : Option Nat)
      (acc : List (Option Nat × Nat)) (fuel : Nat),
      ChainSeg s o l none → l.Nodup → l.length < fuel →
      collectUnmarkedAux fuel s o slot acc =
        (unmarkKeys s l, acc ++ condemnKeys (fun k => !isMarkedAt s k) slot l) := by
  intro l
  induction l with
  | nil =>
    intro s o slot acc fuel hseg _ hfuel
    cases hseg
    cases fuel with
    | zero => simp at hfuel
    | succ fuel' => simp [collectUnmarkedAux, unmarkKeys, condemnKeys]
  | cons i t ih =>
    intro s o slot acc fuel hseg hnd hfuel
    obtain ⟨ho, r, hl, htail⟩ := hseg.cons_elim
    subst ho
    cases fuel with
    | zero => simp at hfuel
    | succ fuel' =>
      have hnd' : t.Nodup := hnd.of_cons
      have hnotmem : i ∉ t := by
        intro hmem
        exact (List.nodup_cons.mp hnd).1 hmem
      unfold collectUnmarkedAux
      rw [hl]
      dsimp only
      have hmarkedAt : isMarkedAt s i = markedOf r.hdr := by
        unfold isMarkedAt
        rw [hl]
        rfl
      by_cases hm : markedOf r.hdr = true
      · rw [if_pos hm]
        have hstrip : stripHdr (supdate s i unmarkRec) = stripHdr s :=
          stripHdr_supdate (fun q => rfl)
        have hseg1 : ChainSeg (supdate s i unmarkRec) r.next t none :=
          htail.frame_next (fun j _ => next_lookup_of_stripHdr hstrip j)
        rw [ih (supdate s i unmarkRec) r.next (some i) acc fuel' hseg1 hnd'
          (by simpa using Nat.lt_of_succ_lt_succ hfuel)]
        have hcongr : condemnKeys (fun k => !isMarkedAt (supdate s i unmarkRec) k)
            (some i) t = condemnKeys (fun k => !isMarkedAt s k) (some i) t := by
          refine condemnKeys_congr t (some i) (fun k hk => ?_)
          have hne : k ≠ i := fun he => hnotmem (he ▸ hk)
          unfold isMarkedAt
          rw [slookup_supdate_ne _ _ hne]
        have hck : condemnKeys (fun k => !isMarkedAt s k) slot (i :: t) =
            condemnKeys (fun k => !isMarkedAt s k) (some i) t := by
          simp [condemnKeys, hmarkedAt, hm]
        have hum : unmarkKeys s (i :: t) = unmarkKeys (supdate s i unmarkRec) t := by
          unfold unmarkKeys
          rw [List.foldl_cons]
        rw [hcongr, hck, hum]
      · rw [if_neg hm]
        simp only [Bool.not_eq_true] at hm
        have hfix : supdate s i unmarkRec = s :=
          supdate_self (fun q hq => by
            rw [hl] at hq
            cases hq
            exact unmarkRec_of_unmarked hm)
        rw [ih s r.next (some i) (acc ++ [(slot, i)]) fuel' htail hnd'
          (by simpa using Nat.lt_of_succ_lt_succ hfuel)]
        have hum : unmarkKeys s (i :: t) = unmarkKeys s t := by
          unfold unmarkKeys
          rw [List.foldl_cons, hfix]
        have hck : condemnKeys (fun k => !isMarkedAt s k) slot (i :: t) =
            (slot, i) :: condemnKeys (fun k => !isMarkedAt s k) (some i) t := by
          simp [condemnKeys, hmarkedAt, hm]
        rw [hum, hck]
        simp

/-- The unmark/condemn walk as invoked by the collector. -/
theorem collectUnmarkedRun_spec {s : Store} {head : Option Nat} {l : List Nat}
    (hseg : ChainSeg s head l none) (hnd : l.Nodup) (hlen : l.length ≤ s.length) :
    collectUnmarkedRun s head =
      (unmarkKeys s l, condemnKeys (fun k => !isMarkedAt s k) none l) := by
  unfold collectUnmarkedRun
  rw [collectUnmarkedAux_spec l s head none [] (s.length + 1) hseg hnd
    (Nat.lt_succ_of_le hlen)]
  rfl

/-- Unmarking a key list only rewrites headers. -/
theorem stripHdr_unmarkKeys (s : Store) (l : List Nat) :
    stripHdr (unmarkKeys s l) = stripHdr s := by
  unfold unmarkKeys
  refine foldl_pres (fun a b => stripHdr b = stripHdr a)
    (fun _ => Eq.refl _) (fun _ _ _ h1 h2 => h2.trans h1) _ ?_ l s
  intro s' i
  exact stripHdr_supdate (fun q => rfl)

/-! The sweep: support lemmas. -/

/-- A condemned record that is unmarked at sweep time. -/
def deadPred (P : Nat → Bool) (kr : Nat × Rec) : Bool := P kr.1 && !markedOf kr.2.hdr

/-- A record the sweep keeps: not condemned, or re-marked by resurrection. -/
def keepPred (P : Nat → Bool) (kr : Nat × Rec) : Bool := !deadPred P kr

/-- The bytes the sweep reclaims from a store. -/
def deadBytes (P : Nat → Bool) (s : Store) : Nat :=
  ((s.filter (deadPred P)).map (fun kr => kr.2.size)).sum

/-- The sweep processes the most recently discovered condemned entry first
(tail-to-head processing of the condemned list). -/
theorem sweep_append (c : List (Option Nat × Nat)) (e : Option Nat × Nat)
    (st : GcState) : sweep (c ++ [e]) st = sweep c (sweepStep st e) := by
  unfold sweep
  rw [List.reverse_append]
  rfl

/-- Sweeping an empty condemned list does nothing. -/
theorem sweep_nil (st : GcState) : sweep [] st = st := rfl

/-- The walked-out slot of a concatenation ending in `x` is `x`'s cell. -/
theorem lastSlot_concat : ∀ (l : List Nat) (x : Nat) (prev : Option Nat),
    lastSlot prev (l ++ [x]) = some x := by
  intro l
  induction l with
  | nil => intro x prev; rfl
  | cons y t ih => intro x prev; exact ih x (some y)

/-- Configuration and statistics fields `writeSlot` leaves alone. -/
theorem writeSlot_config (st : GcState) (slot : Option Nat) (v : Option Nat) :
    (writeSlot st slot v).bytes_allocated = st.bytes_allocated ∧
    (writeSlot st slot v).collections_performed = st.collections_performed ∧
    (writeSlot st slot v).threshold = st.threshold ∧
    (writeSlot st slot v).used_space_frac = st.used_space_frac ∧
    (writeSlot st slot v).leak_on_drop = st.leak_on_drop := by
  cases slot <;> exact ⟨rfl, rfl, rfl, rfl, rfl⟩

/-- Link-stripping distributes over concatenation. -/
theorem stripNext_append (a b : Store) :
    stripNext (a ++ b) = stripNext a ++ stripNext b := by
  unfold stripNext
  exact List.map_append _ a b

/-- A next-only update does not change the stripped store. -/
theorem stripNext_supdate_next (s : Store) (p : Nat) (v : Option Nat) :
    stripNext (supdate s p (fun r => { r with next := v })) = stripNext s := by
  induction s with
  | nil => rfl
  | cons kr t ih =>
    obtain ⟨k, r⟩ := kr
    by_cases h : k = p
    · simp [supdate, stripNext, h]
    · simpa [supdate, stripNext, h] using ih

/-- Link-stripping commutes with filtering by a link-blind predicate. -/
theorem stripNext_filter (q : Nat × Rec → Bool)
    (hq : ∀ k r, q (k, { r with next := none }) = q (k, r)) :
    ∀ s : Store, stripNext (s.filter q) = (stripNext s).filter q := by
  intro s
  induction s with
  | nil => rfl
  | cons kr t ih =>
    obtain ⟨k, r⟩ := kr
    by_cases h : q (k, r) = true
    · simp only [List.filter_cons]
      rw [h]
      have h2 : q (k, { r with next := none }) = true := (hq k r).trans h
      simp only [stripNext, List.map_cons]
      rw [List.filter_cons]
      simp only [h2, if_true]
      simpa [stripNext] using ih
    · simp only [List.filter_cons]
      rw [Bool.eq_false_iff.mpr h]
      have h2 : q (k, { r with next := none }) = false := by
        rw [hq k r]
        exact Bool.eq_false_iff.mpr h
      simp only [stripNext, List.map_cons]
      rw [List.filter_cons]
      simp only [h2, Bool.false_eq_true, if_false]
      simpa [stripNext] using ih

/-- `deadPred` never reads the link. -/
theorem deadPred_stripNext (P : Nat → Bool) (k : Nat) (r : Rec) :
    deadPred P (k, { r with next := none }) = deadPred P (k, r) := rfl

/-- `keepPred` never reads the link. -/
theorem keepPred_stripNext (P : Nat → Bool) (k : Nat) (r : Rec) :
    keepPred P (k, { r with next := none }) = keepPred P (k, r) := rfl

/-- Sizes are unaffected by link-stripping. -/
theorem map_size_stripNext (s : Store) :
    (stripNext s).map (fun kr => kr.2.size) = s.map (fun kr => kr.2.size) := by
  unfold stripNext
  induction s with
  | nil => rfl
  | cons kr t ih => simpa using ih

/-- `deadBytes` is determined by the stripped store. -/
theorem deadBytes_eq_stripped (P : Nat → Bool) (s : Store) :
    deadBytes P s = (((stripNext s).filter (deadPred P)).map
      (fun kr => kr.2.size)).sum := by
  unfold deadBytes
  rw [← stripNext_filter (deadPred P) (deadPred_stripNext P), map_size_stripNext]

/-- Stores with equal stripped views reclaim the same bytes. -/
theorem deadBytes_congr {a b : Store} (h : stripNext a = stripNext b)
    (P : Nat → Bool) : deadBytes P a = deadBytes P b := by
  rw [deadBytes_eq_stripped, deadBytes_eq_stripped, h]

/-- Stores with equal stripped views keep strip-equal survivors. -/
theorem filter_keep_congr {a b : Store} (h : stripNext a = stripNext b)
    (P : Nat → Bool) :
    stripNext (a.filter (keepPred P)) = stripNext (b.filter (keepPred P)) := by
  rw [stripNext_filter (keepPred P) (keepPred_stripNext P),
    stripNext_filter (keepPred P) (keepPred_stripNext P), h]

/-- Reclaimed bytes of a store ending in one extra record. -/
theorem deadBytes_append_singleton (P : Nat → Bool) (xs : Store) (kr : Nat × Rec) :
    deadBytes P (xs ++ [kr]) =
      deadBytes P xs + (if deadPred P kr then kr.2.size else 0) := by
  unfold deadBytes
  rw [List.filter_append]
  by_cases h : deadPred P kr = true
  · simp [h]
  · simp [h]

/-- Survivors of a store ending in one extra record. -/
theorem filter_keep_append_singleton (P : Nat → Bool) (xs : Store) (kr : Nat × Rec) :
    (xs ++ [kr]).filter (keepPred P) =
      xs.filter (keepPred P) ++ (if keepPred P kr then [kr] else []) := by
  rw [List.filter_append]
  by_cases h : keepPred P kr = true
  · simp [h]
  · simp [h]

/-- Updating the record at the tail singleton position. -/
theorem supdate_concat_self {ys : Store} {p : Nat} (rp : Rec) (f : Rec → Rec)
    (h : p ∉ ys.map Prod.fst) :
    supdate (ys ++ [(p, rp)]) p f = ys ++ [(p, f rp)] := by
  induction ys with
  | nil => simp [supdate]
  | cons kr t ih =>
    obtain ⟨k, r⟩ := kr
    simp only [List.map_cons, List.mem_cons, not_or] at h
    obtain ⟨h1, h2⟩ := h
    simp [supdate, Ne.symm h1, ih h2]

/-- What one sweep call achieves relative to the decomposition of its
starting store as `front ++ rest`, where the condemned entries select only
from `front`: survivors (up to rewritten links), restored chain, reclaimed
bytes, untouched statistics and configuration. -/
def SweepOutcome (st : GcState) (P : Nat → Bool) (front rest : Store)
    (res : GcState) : Prop :=
  stripNext res.store = stripNext (front.filter (keepPred P) ++ rest) ∧
  ChainSeg res.store res.boxes_start
    ((front.filter (keepPred P) ++ rest).map Prod.fst) none ∧
  res.bytes_allocated = st.bytes_allocated - deadBytes P front ∧
  res.collections_performed = st.collections_performed ∧
  res.threshold = st.threshold ∧
  res.used_space_frac = st.used_space_frac ∧
  res.leak_on_drop = st.leak_on_drop

/-- A record the sweep keeps may be moved from the condemned-selection region
into the untouched region of the decomposition. -/
theorem SweepOutcome.absorb_kept {st : GcState} {P : Nat → Bool}
    {xs rest : Store} {k : Nat} {r : Rec} {res : GcState}
    (hkeep : keepPred P (k, r) = true)
    (h : SweepOutcome st P xs ((k, r) :: rest) res) :
    SweepOutcome st P (xs ++ [(k, r)]) rest res := by
  obtain ⟨h1, h2, h3, h4, h5, h6, h7⟩ := h
  have hdead : deadPred P (k, r) = false := by
    unfold keepPred at hkeep
    simpa using hkeep
  refine ⟨?_, ?_, ?_, h4, h5, h6, h7⟩
  · rw [filter_keep_append_singleton, if_pos hkeep, List.append_assoc]
    exact h1
  · rw [filter_keep_append_singleton, if_pos hkeep, List.append_assoc]
    exact h2
  · rw [deadBytes_append_singleton, hdead]
    simpa using h3

/-- The sweep theorem: sweeping the condemned entries selected by `P` from
the `front` part of the store deallocates exactly the still-unmarked
selected records, splices the chain around them, and subtracts exactly
their sizes from the byte counter. -/
theorem sweep_front :
    ∀ (n : Nat) (front rest : Store) (st : GcState) (P : Nat → Bool),
      front.length ≤ n →
      st.store = front ++ rest →
      (((front ++ rest).map Prod.fst).Nodup) →
      ChainSeg st.store st.boxes_start ((front ++ rest).map Prod.fst) none →
      SweepOutcome st P front rest
        (sweep (condemnKeys P none (front.map Prod.fst)) st) := by
  intro n
  induction n with
  | zero =>
    intro front rest st P hlen hstore hnd hseg
    have hf : front = [] := List.length_eq_zero.mp (Nat.le_zero.mp hlen)
    subst hf
    refine ⟨?_, ?_, ?_, rfl, rfl, rfl, rfl⟩
    · show stripNext st.store = _
      simp only [List.filter_nil, List.nil_append]
      rw [hstore]
      rfl
    · show ChainSeg st.store st.boxes_start _ none
      simpa using hseg
    · show st.bytes_allocated = _
      simp [deadBytes]
  | succ n ih =>
    intro front rest st P hlen hstore hnd hseg
    rcases List.eq_nil_or_concat front with hf | ⟨xs, kr, hf⟩
    · subst hf
      refine ⟨?_, ?_, ?_, rfl, rfl, rfl, rfl⟩
      · show stripNext st.store = _
        simp only [List.filter_nil, List.nil_append]
        rw [hstore]
        rfl
      · show ChainSeg st.store st.boxes_start _ none
        simpa using hseg
      · show st.bytes_allocated = _
        simp [deadBytes]
    · rw [List.concat_eq_append] at hf
      subst hf
      obtain ⟨k, r⟩ := kr
      have hlen' : xs.length ≤ n := by
        simp only [List.length_append, List.length_cons, List.length_nil] at hlen
        omega
      -- normalized key list and derived distinctness
      have hstoreN : st.store = xs ++ (k, r) :: rest := by
        rw [hstore, List.append_assoc]
        rfl
      have hndN : (xs.map Prod.fst ++ k :: rest.map Prod.fst).Nodup := by
        have : ((xs ++ [(k, r)]) ++ rest).map Prod.fst =
            xs.map Prod.fst ++ k :: rest.map Prod.fst := by simp
        rw [this] at hnd
        exact hnd
      have hsegN : ChainSeg st.store st.boxes_start
          (xs.map Prod.fst ++ k :: rest.map Prod.fst) none := by
        have : ((xs ++ [(k, r)]) ++ rest).map Prod.fst =
            xs.map Prod.fst ++ k :: rest.map Prod.fst := by simp
        rw [this] at hseg
        exact hseg
      have hndk : (k :: (xs.map Prod.fst ++ rest.map Prod.fst)).Nodup :=
        List.nodup_middle.mp hndN
      have hknot : k ∉ xs.map Prod.fst ++ rest.map Prod.fst :=
        (List.nodup_cons.mp hndk).1
      have hknotxs : k ∉ xs.map Prod.fst := fun hmem =>
        hknot (List.mem_append_left _ hmem)
      have hknotrest : k ∉ rest.map Prod.fst := fun hmem =>
        hknot (List.mem_append_right _ hmem)
      have hndNoK : (xs.map Prod.fst ++ rest.map Prod.fst).Nodup :=
        (List.nodup_cons.mp hndk).2
      have hlkup : slookup st.store k = some r := by
        rw [hstoreN, slookup_append_right _ hknotxs]
        simp [slookup]
      have hck : condemnKeys P none ((xs ++ [(k, r)]).map Prod.fst) =
          condemnKeys P none (xs.map Prod.fst) ++
            (if P k then [(lastSlot none (xs.map Prod.fst), k)] else []) := by
        have hmap : (xs ++ [(k, r)]).map Prod.fst = xs.map Prod.fst ++ [k] := by
          simp
        rw [hmap]
        exact condemnKeys_append P (xs.map Prod.fst) k none
      by_cases hP : P k = true
      · -- the last record of the front is condemned
        rw [hck, if_pos hP, sweep_append]
        by_cases hm : markedOf r.hdr = true
        · -- marked at sweep time: skipped entirely
          have hstep : sweepStep st (lastSlot none (xs.map Prod.fst), k) = st := by
            unfold sweepStep
            rw [hlkup]
            dsimp only
            rw [if_pos hm]
          rw [hstep]
          have hkeep : keepPred P (k, r) = true := by
            simp [keepPred, deadPred, hP, hm]
          exact SweepOutcome.absorb_kept hkeep
            (ih xs ((k, r) :: rest) st P hlen' hstoreN
              (by simpa using hndN) (by simpa using hsegN))
        · -- unmarked at sweep time: deallocated and spliced out
          have hmf : markedOf r.hdr = false := by
            simpa using hm
          have hstep : sweepStep st (lastSlot none (xs.map Prod.fst), k) =
              writeSlot
                { st with
                    store := serase st.store k
                    bytes_allocated := st.bytes_allocated - r.size }
                (lastSlot none (xs.map Prod.fst)) r.next := by
            unfold sweepStep
            rw [hlkup]
            dsimp only
            rw [if_neg hm]
          rw [hstep]
          have hdead : deadPred P (k, r) = true := by
            simp [deadPred, hP, hmf]
          have hkeepf : keepPred P (k, r) = false := by
            simp [keepPred, hdead]
          rcases List.eq_nil_or_concat xs with hxs | ⟨ys, pr, hxs⟩
          · -- the condemned record was the chain head
            subst hxs
            have hslot : lastSlot none (([] : Store).map Prod.fst) = none := rfl
            rw [hslot, writeSlot]
            have hstore1 : serase st.store k = rest := by
              rw [hstoreN]
              simp [serase]
            obtain ⟨hhead, r', hl', htail⟩ := hsegN.cons_elim
            have hr' : r' = r := by
              rw [hlkup] at hl'
              injection hl' with he
              exact he.symm
            rw [hr'] at htail
            have hsegRest : ChainSeg rest r.next (rest.map Prod.fst) none := by
              refine htail.frame_next (fun j hj => ?_) |>.frame_next
                (fun j hj => Eq.refl _)
              have hjk : j ≠ k := by
                intro he
                exact hknotrest (he ▸ hj)
              rw [← hstore1, slookup_serase_ne _ hjk]
            refine ⟨?_, ?_, ?_, rfl, rfl, rfl, rfl⟩
            · show stripNext (serase st.store k) = _
              rw [hstore1, filter_keep_append_singleton, hkeepf]
              simp
            · show ChainSeg (serase st.store k) r.next _ none
              rw [hstore1, filter_keep_append_singleton, hkeepf]
              simpa using hsegRest
            · show st.bytes_allocated - r.size = _
              rw [deadBytes_append_singleton, hdead]
              simp [deadBytes]
          · -- the condemned record had a predecessor `p` in the front
            rw [List.concat_eq_append] at hxs
            subst hxs
            obtain ⟨p, rp⟩ := pr
            have hys : (ys ++ [(p, rp)]).map Prod.fst = ys.map Prod.fst ++ [p] := by
              simp
            have hslot : lastSlot none ((ys ++ [(p, rp)]).map Prod.fst) = some p := by
              rw [hys]
              exact lastSlot_concat _ p none
            rw [hslot, writeSlot]
            -- distinctness bookkeeping
            have hndP : (p :: (ys.map Prod.fst ++ (k :: rest.map Prod.fst))).Nodup := by
              have : (ys.map Prod.fst ++ [p]) ++ k :: rest.map Prod.fst =
                  ys.map Prod.fst ++ p :: k :: rest.map Prod.fst := by simp
              refine List.nodup_middle.mp ?_
              rw [← this, ← hys]
              exact hndN
            have hpnot : p ∉ ys.map Prod.fst ++ (k :: rest.map Prod.fst) :=
              (List.nodup_cons.mp hndP).1
            have hpnotys : p ∉ ys.map Prod.fst := fun hmem =>
              hpnot (List.mem_append_left _ hmem)
            have hpk : p ≠ k := by
              intro he
              exact hpnot (List.mem_append_right _ (by simp [he]))
            have hpnotrest : p ∉ rest.map Prod.fst := fun hmem =>
              hpnot (List.mem_append_right _ (by simp [hmem]))
            have hknotys : k ∉ ys.map Prod.fst := fun hmem =>
              hknotxs (by rw [hys]; exact List.mem_append_left _ hmem)
            -- the store after erasing `k` and rewriting `p`'s link
            have hstore1 : serase st.store k = ys ++ (p, rp) :: rest := by
              have : st.store = (ys ++ [(p, rp)]) ++ (k, r) :: rest := by
                rw [hstoreN, List.append_assoc]
              rw [this]
              have hknot2 : k ∉ (ys ++ [(p, rp)]).map Prod.fst := by
                rw [hys]
                intro hmem
                rcases List.mem_append.mp hmem with h' | h'
                · exact hknotys h'
                · simp at h'
                  exact hpk h'.symm
              rw [serase_append_mid _ r hknot2, List.append_assoc]
              rfl
            have hstore2 : supdate (serase st.store k) p
                (fun q => { q with next := r.next }) =
                (ys ++ [(p, { rp with next := r.next })]) ++ rest := by
              rw [hstore1]
              have : ys ++ (p, rp) :: rest = (ys ++ [(p, rp)]) ++ rest := by
                rw [List.append_assoc]
                rfl
              rw [this, supdate_append_left _ _ (by rw [hys]; simp),
                supdate_concat_self rp _ hpnotys]
            -- chain decomposition of the original store
            obtain ⟨m1, segYs, segMid⟩ :=
              (by
                have : ys.map Prod.fst ++ p :: k :: rest.map Prod.fst =
                    (ys ++ [(p, rp)]).map Prod.fst ++ k :: rest.map Prod.fst := by
                  simp
                rw [← this] at hsegN
                exact hsegN :
                ChainSeg st.store st.boxes_start
                  (ys.map Prod.fst ++ p :: k :: rest.map Prod.fst) none).append_elim
            obtain ⟨hm1, rp', hlp', segK⟩ := segMid.cons_elim
            have hlp : slookup st.store p = some rp := by
              have hst2 : st.store = ys ++ (p, rp) :: ((k, r) :: rest) := by
                rw [hstoreN, List.append_assoc]
                rfl
              rw [hst2, slookup_append_right _ hpnotys]
              simp [slookup]
            have hrp' : rp' = rp := by
              rw [hlp] at hlp'
              injection hlp' with he
              exact he.symm
            rw [hrp'] at segK
            obtain ⟨hrpnext, r'', hlk'', segTail⟩ := segK.cons_elim
            have hr'' : r'' = r := by
              rw [hlkup] at hlk''
              injection hlk'' with he2
              exact he2.symm
            rw [hr''] at segTail
            -- lookups unchanged away from `k` and `p`
            have hlooks : ∀ j, j ≠ k → j ≠ p →
                slookup (supdate (serase st.store k) p
                  (fun q => { q with next := r.next })) j = slookup st.store j := by
              intro j hjk hjp
              rw [slookup_supdate_ne _ _ hjp, slookup_serase_ne _ hjk]
            have hlookp : slookup (supdate (serase st.store k) p
                (fun q => { q with next := r.next })) p =
                some { rp with next := r.next } := by
              rw [slookup_supdate_same, slookup_serase_ne _ hpk, hlp]
              rfl
            -- rebuild the chain through the splice
            have segYs' : ChainSeg (supdate (serase st.store k) p
                (fun q => { q with next := r.next })) st.boxes_start
                (ys.map Prod.fst) (some p) := by
              rw [← hm1]
              refine segYs.frame_next (fun j hj => ?_)
              have hjp : j ≠ p := fun he => hpnotys (he ▸ hj)
              have hjk : j ≠ k := fun he => hknotys (he ▸ hj)
              rw [hlooks j hjk hjp]
            have segTail' : ChainSeg (supdate (serase st.store k) p
                (fun q => { q with next := r.next })) r.next
                (rest.map Prod.fst) none := by
              refine segTail.frame_next (fun j hj => ?_)
              have hjp : j ≠ p := fun he => hpnotrest (he ▸ hj)
              have hjk : j ≠ k := fun he => hknotrest (he ▸ hj)
              rw [hlooks j hjk hjp]
            have segMid' : ChainSeg (supdate (serase st.store k) p
                (fun q => { q with next := r.next })) (some p)
                (p :: rest.map Prod.fst) none :=
              ChainSeg.cons hlookp segTail'
            have segNew : ChainSeg (supdate (serase st.store k) p
                (fun q => { q with next := r.next })) st.boxes_start
                (ys.map Prod.fst ++ p :: rest.map Prod.fst) none :=
              segYs'.append_intro segMid'
            -- recurse on the rewritten front
            have hmain := ih (ys ++ [(p, { rp with next := r.next })]) rest
              { st with
                  store := supdate (serase st.store k) p
                    (fun q => { q with next := r.next })
                  bytes_allocated := st.bytes_allocated - r.size }
              P
              (by simpa using hlen')
              (by
                show supdate (serase st.store k) p _ = _
                exact hstore2)
              (by
                have hmap : ((ys ++ [(p, { rp with next := r.next })]) ++ rest).map
                    Prod.fst = (ys.map Prod.fst ++ [p]) ++ rest.map Prod.fst := by
                  simp
                rw [hmap]
                have hndN' : ((ys.map Prod.fst ++ [p]) ++
                    k :: rest.map Prod.fst).Nodup := by
                  rw [← hys]
                  exact hndN
                exact (List.nodup_cons.mp (List.nodup_middle.mp hndN')).2)
              (by
                have hmap : ((ys ++ [(p, { rp with next := r.next })]) ++ rest).map
                    Prod.fst = ys.map Prod.fst ++ p :: rest.map Prod.fst := by
                  simp
                rw [hmap]
                exact segNew)
            -- convert the recursion outcome back to the original decomposition
            have hkeys : (ys ++ [(p, { rp with next := r.next })]).map Prod.fst =
                (ys ++ [(p, rp)]).map Prod.fst := by simp
            rw [hkeys] at hmain
            obtain ⟨o1, o2, o3, o4, o5, o6, o7⟩ := hmain
            have hstripXs : stripNext (ys ++ [(p, { rp with next := r.next })]) =
                stripNext (ys ++ [(p, rp)]) := by
              rw [stripNext_append, stripNext_append]
              rfl
            refine ⟨?_, ?_, ?_, o4, o5, o6, o7⟩
            · rw [filter_keep_append_singleton, if_neg (by simp [hkeepf]),
                List.append_nil]
              rw [stripNext_append, ← filter_keep_congr hstripXs P, ← stripNext_append]
              exact o1
            · rw [filter_keep_append_singleton, if_neg (by simp [hkeepf]),
                List.append_nil]
              have hmapeq : ((ys ++ [(p, { rp with next := r.next })]).filter
                  (keepPred P)).map Prod.fst =
                  ((ys ++ [(p, rp)]).filter (keepPred P)).map Prod.fst :=
                map_fst_of_stripNext (filter_keep_congr hstripXs P)
              have hlist : (((ys ++ [(p, { rp with next := r.next })]).filter
                    (keepPred P)) ++ rest).map Prod.fst =
                  (((ys ++ [(p, rp)]).filter (keepPred P)) ++ rest).map Prod.fst := by
                rw [List.map_append, List.map_append, hmapeq]
              rw [← hlist]
              exact o2
            · rw [deadBytes_append_singleton, if_pos hdead]
              rw [deadBytes_congr hstripXs P] at o3
              have harith : (st.bytes_allocated - r.size) -
                  deadBytes P (ys ++ [(p, rp)]) =
                  st.bytes_allocated - (deadBytes P (ys ++ [(p, rp)]) + r.size) := by
                omega
              exact o3.trans harith
      · -- the last record of the front is not condemned
        rw [hck, if_neg (by simp [hP]), List.append_nil]
        have hkeep : keepPred P (k, r) = true := by
          simp only [Bool.not_eq_true] at hP
          simp [keepPred, deadPred, hP]
        exact SweepOutcome.absorb_kept hkeep
          (ih xs ((k, r) :: rest) st P hlen' hstoreN
            (by simpa using hndN) (by simpa using hsegN))

/-! Assembling the phases of `collect_garbage`. -/

/-- The unmark/condemn walk only rewrites headers. -/
theorem collectUnmarkedAux_stripHdr :
    ∀ (fuel : Nat) (s : Store) (o slot : Option Nat)
      (acc : List (Option Nat × Nat)),
      stripHdr (collectUnmarkedAux fuel s o slot acc).1 = stripHdr s := by
  intro fuel
  induction fuel with
  | zero => intro s o slot acc; rfl
  | succ fuel ih =>
    intro s o slot acc
    cases o with
    | none => rfl
    | some i =>
      unfold collectUnmarkedAux
      cases h : slookup s i with
      | none => rfl
      | some r =>
        dsimp only
        by_cases hm : markedOf r.hdr = true
        · rw [if_pos hm, ih]
          exact stripHdr_supdate (fun q => rfl)
        · rw [if_neg hm]
          exact ih _ _ _ _

/-- The marked store of a collection agrees with the original store up to
headers. -/
theorem stripHdr_markedStore (st : GcState) :
    stripHdr (markedStore st) = stripHdr st.store :=
  (markPhase_markEvolve st.store st.boxes_start).1

/-- The post-unmark store agrees with the original store up to headers. -/
theorem stripHdr_unmarkedStore (st : GcState) :
    stripHdr (unmarkedStore st) = stripHdr st.store := by
  unfold unmarkedStore collectUnmarkedRun
  rw [collectUnmarkedAux_stripHdr]
  exact stripHdr_markedStore st

/-- The post-finalize store agrees with the original store up to headers. -/
theorem stripHdr_finalizedStore (st : GcState) :
    stripHdr (finalizedStore st) = stripHdr st.store := by
  unfold finalizedStore
  rw [stripHdr_finalizePhase]
  exact stripHdr_unmarkedStore st

/-- The re-marked store agrees with the original store up to headers. -/
theorem stripHdr_remarkStore (st : GcState) :
    stripHdr (remarkStore st) = stripHdr st.store := by
  unfold remarkStore
  exact (markPhase_markEvolve _ _).1.trans (stripHdr_finalizedStore st)

/-- The selector of a collection's condemned records: unmarked after the
first mark phase. -/
def condemnSel (st : GcState) : Nat → Bool := fun k => !isMarkedAt (markedStore st) k

/-- Under well-formedness, the condemned list is exactly the
`condemnSel`-selected chain keys with their predecessor slots, and the
post-unmark store is the marked store with all marks cleared. -/
theorem condemnedOf_eq {st : GcState} (h : WF st) :
    condemnedOf st = condemnKeys (condemnSel st) none (st.store.map Prod.fst) ∧
    unmarkedStore st = unmarkKeys (markedStore st) (st.store.map Prod.fst) := by
  have hkeys : (markedStore st).map Prod.fst = st.store.map Prod.fst :=
    map_fst_of_stripHdr (stripHdr_markedStore st)
  have hseg : ChainSeg (markedStore st) st.boxes_start
      (st.store.map Prod.fst) none :=
    h.aligned.of_stripHdr (stripHdr_markedStore st)
  have hlen : (st.store.map Prod.fst).length ≤ (markedStore st).length := by
    have := congrArg List.length hkeys
    simp only [List.length_map] at this
    simp [this]
  have hspec := collectUnmarkedRun_spec hseg h.nodup hlen
  constructor
  · unfold condemnedOf
    rw [hspec]
    rfl
  · unfold unmarkedStore
    rw [hspec]


/-- Key membership in a filtered store, under distinct keys. -/
theorem mem_keys_filter {s : Store} (hnd : (s.map Prod.fst).Nodup)
    (q : Nat × Rec → Bool) (k : Nat) :
    k ∈ (s.filter q).map Prod.fst ↔
      ∃ r, slookup s k = some r ∧ q (k, r) = true := by
  induction s with
  | nil => simp [slookup]
  | cons kr t ih =>
    obtain ⟨k', r'⟩ := kr
    have hnd' : (t.map Prod.fst).Nodup := (List.nodup_cons.mp hnd).2
    have hk'mem : k' ∉ t.map Prod.fst := (List.nodup_cons.mp hnd).1
    by_cases hk : k' = k
    · subst hk
      rw [List.filter_cons]
      by_cases hq : q (k', r') = true
      · simp only [hq, if_true, List.map_cons, List.mem_cons]
        constructor
        · intro _
          exact ⟨r', by simp [slookup], hq⟩
        · intro _
          exact Or.inl trivial
      · simp only [hq, Bool.false_eq_true, if_false]
        constructor
        · intro hmem
          have : k' ∈ t.map Prod.fst := by
            have hsub : List.Sublist ((t.filter q).map Prod.fst) (t.map Prod.fst) :=
              List.Sublist.map Prod.fst (List.filter_sublist _)
            exact hsub.mem hmem
          exact absurd this hk'mem
        · rintro ⟨r, hr, hqr⟩
          rw [show slookup ((k', r') :: t) k' = some r' from by simp [slookup]] at hr
          injection hr with he
          rw [← he] at hqr
          exact absurd hqr hq
    · rw [List.filter_cons]
      have hlook : slookup ((k', r') :: t) k = slookup t k := by
        simp [slookup, hk]
      by_cases hq : q (k', r') = true
      · simp only [hq, if_true, List.map_cons, List.mem_cons]
        rw [hlook] at *
        constructor
        · intro hmem
          rcases hmem with he | hmem
          · exact absurd he.symm hk
          · exact (ih hnd').mp hmem
        · intro hex
          exact Or.inr ((ih hnd').mpr hex)
      · simp only [hq, Bool.false_eq_true, if_false]
        rw [hlook]
        exact ih hnd'

/-- The chain walk only reads keys and links, never headers. -/
theorem chainAux_congr_stripHdr {s s' : Store} (h : stripHdr s' = stripHdr s) :
    ∀ (fuel : Nat) (o : Option Nat), chainAux fuel s' o = chainAux fuel s o := by
  intro fuel
  induction fuel with
  | zero => intro o; rfl
  | succ fuel ih =>
    intro o
    cases o with
    | none => rfl
    | some i =>
      unfold chainAux
      have hp := strip_lookup_of_stripHdr h i
      cases h1 : slookup s' i with
      | none =>
        cases h2 : slookup s i with
        | none => rfl
        | some r2 => rw [h1, h2] at hp; exact absurd hp (by simp)
      | some r1 =>
        cases h2 : slookup s i with
        | none => rw [h1, h2] at hp; exact absurd hp (by simp)
        | some r2 =>
          rw [h1, h2] at hp
          simp only [Option.map_some', Option.some.injEq] at hp
          have hn : r1.next = r2.next := by
            have hq := congrArg Rec.next hp
            exact hq
          dsimp only
          rw [hn, ih r2.next]

/-- Payload reads only depend on the header-stripped store. -/
theorem data_lookup_of_stripHdr {s s' : Store} (h : stripHdr s' = stripHdr s)
    (i : Nat) :
    (slookup s' i).map (fun r => r.data) = (slookup s i).map (fun r => r.data) := by
  have hp := strip_lookup_of_stripHdr h i
  cases h1 : slookup s' i with
  | none =>
    cases h2 : slookup s i with
    | none => rfl
    | some r2 => rw [h1, h2] at hp; exact absurd hp (by simp)
  | some r1 =>
    cases h2 : slookup s i with
    | none => rw [h1, h2] at hp; exact absurd hp (by simp)
    | some r2 =>
      rw [h1, h2] at hp
      simp only [Option.map_some', Option.some.injEq] at hp ⊢
      have hq := congrArg Rec.data hp
      exact hq

/-- Full characterization of a collection whose condemned list is non-empty:
the resulting store is (up to rewritten chain links) the re-marked store
restricted to kept records, the chain is rebuilt over exactly those records,
and the byte counter loses exactly the swept records' sizes. -/
theorem collectGarbage_spec {st : GcState} (h : WF st)
    (hne : (condemnedOf st).isEmpty = false) :
    stripNext (collectGarbage st).store =
      stripNext ((remarkStore st).filter (keepPred (condemnSel st))) ∧
    ChainSeg (collectGarbage st).store (collectGarbage st).boxes_start
      (((remarkStore st).filter (keepPred (condemnSel st))).map Prod.fst) none ∧
    (collectGarbage st).bytes_allocated =
      st.bytes_allocated - deadBytes (condemnSel st) (remarkStore st) := by
  have hkeysR : (remarkStore st).map Prod.fst = st.store.map Prod.fst :=
    map_fst_of_stripHdr (stripHdr_remarkStore st)
  have hsegR : ChainSeg (remarkStore st) st.boxes_start
      ((remarkStore st).map Prod.fst) none := by
    rw [hkeysR]
    exact h.aligned.of_stripHdr (stripHdr_remarkStore st)
  have hmain := sweep_front ((remarkStore st).length) (remarkStore st) []
    ⟨remarkStore st, st.boxes_start, st.bytes_allocated,
      st.collections_performed + 1, st.threshold, st.used_space_frac,
      st.leak_on_drop⟩ (condemnSel st) (le_refl _)
    (by rw [List.append_nil])
    (by rw [List.append_nil, hkeysR]; exact h.nodup)
    (by rw [List.append_nil]; exact hsegR)
  obtain ⟨o1, o2, o3, _, _, _, _⟩ := hmain
  rw [List.append_nil] at o1 o2
  have hcond : condemnKeys (condemnSel st) none ((remarkStore st).map Prod.fst) =
      condemnedOf st := by
    rw [hkeysR, (condemnedOf_eq h).1]
  rw [hcond] at o1 o2 o3
  have hcg : collectGarbage st = sweep (condemnedOf st)
      ⟨remarkStore st, st.boxes_start, st.bytes_allocated,
        st.collections_performed + 1, st.threshold, st.used_space_frac,
        st.leak_on_drop⟩ := by
    unfold collectGarbage
    rw [if_neg (by simp [hne])]
  rw [hcg]
  exact ⟨o1, o2, o3⟩

/-- A collection preserves well-formedness. -/
theorem collectGarbage_WF {st : GcState} (h : WF st) : WF (collectGarbage st) := by
  by_cases hne : (condemnedOf st).isEmpty = true
  · have hstrip : stripHdr (unmarkedStore st) = stripHdr st.store :=
      stripHdr_unmarkedStore st
    have hkeys := map_fst_of_stripHdr hstrip
    have hcg : collectGarbage st =
        ⟨unmarkedStore st, st.boxes_start, st.bytes_allocated,
          st.collections_performed + 1, st.threshold, st.used_space_frac,
          st.leak_on_drop⟩ := by
      unfold collectGarbage
      rw [if_pos hne]
    rw [hcg]
    refine ⟨?_, ?_⟩
    · show ((unmarkedStore st).map Prod.fst).Nodup
      rw [hkeys]
      exact h.nodup
    · show ChainSeg (unmarkedStore st) st.boxes_start
        ((unmarkedStore st).map Prod.fst) none
      rw [hkeys]
      exact h.aligned.of_stripHdr hstrip
  · have hne' : (condemnedOf st).isEmpty = false := by
      simpa using hne
    obtain ⟨o1, o2, _⟩ := collectGarbage_spec h hne'
    have hkeysRes : (collectGarbage st).store.map Prod.fst =
        ((remarkStore st).filter (keepPred (condemnSel st))).map Prod.fst :=
      map_fst_of_stripNext o1
    refine ⟨?_, ?_⟩
    · rw [hkeysRes]
      have hsub : List.Sublist
          (((remarkStore st).filter (keepPred (condemnSel st))).map Prod.fst)
          ((remarkStore st).map Prod.fst) :=
        List.Sublist.map Prod.fst (List.filter_sublist _)
      have hndR : ((remarkStore st).map Prod.fst).Nodup := by
        rw [map_fst_of_stripHdr (stripHdr_remarkStore st)]
        exact h.nodup
      exact hndR.sublist hsub
    · rw [hkeysRes]
      exact o2

/-- The chain after a non-trivial collection: exactly the kept records. -/
theorem collectGarbage_chainList {st : GcState} (h : WF st)
    (hne : (condemnedOf st).isEmpty = false) :
    chainList (collectGarbage st) =
      ((remarkStore st).filter (keepPred (condemnSel st))).map Prod.fst := by
  rw [chainList_eq_keys (collectGarbage_WF h)]
  exact map_fst_of_stripNext (collectGarbage_spec h hne).1

/-- The condemned identities are the `condemnSel`-selected chain keys. -/
theorem condemned_ids {st : GcState} (h : WF st) :
    (condemnedOf st).map Prod.snd =
      (st.store.map Prod.fst).filter (condemnSel st) := by
  rw [(condemnedOf_eq h).1, condemnKeys_map_snd]

/-- Claim C5: the sweep visits the condemned list tail to head (the entry
discovered last is processed first); at sweep time it skips every condemned
record that is marked — such a record stays in the chain — and deallocates
every other condemned record, subtracting exactly the deallocated sizes
from the byte counter and splicing the chain back together over exactly the
surviving records (whose payloads and headers are untouched, only chain
links are rewritten). -/
theorem c5_sweep_behavior (st : GcState) (h : WF st)
    (hne : (condemnedOf st).isEmpty = false) :
    (∀ (c : List (Option Nat × Nat)) (e : Option Nat × Nat) (st' : GcState),
        sweep (c ++ [e]) st' = sweep c (sweepStep st' e)) ∧
    chainList (collectGarbage st) =
      ((remarkStore st).filter (keepPred (condemnSel st))).map Prod.fst ∧
    stripNext (collectGarbage st).store =
      stripNext ((remarkStore st).filter (keepPred (condemnSel st))) ∧
    (collectGarbage st).bytes_allocated =
      st.bytes_allocated - deadBytes (condemnSel st) (remarkStore st) ∧
    (∀ k, k ∈ (condemnedOf st).map Prod.snd →
        isMarkedAt (remarkStore st) k = true →
        k ∈ chainList (collectGarbage st)) ∧
    (∀ k, k ∈ (condemnedOf st).map Prod.snd →
        isMarkedAt (remarkStore st) k = false →
        k ∉ chainList (collectGarbage st)) := by
  obtain ⟨o1, _, o3⟩ := collectGarbage_spec h hne
  have hchain := collectGarbage_chainList h hne
  have hndR : ((remarkStore st).map Prod.fst).Nodup := by
    rw [map_fst_of_stripHdr (stripHdr_remarkStore st)]
    exact h.nodup
  have hmemR : ∀ k, k ∈ (condemnedOf st).map Prod.snd →
      condemnSel st k = true ∧ ∃ r, slookup (remarkStore st) k = some r := by
    intro k hk
    rw [condemned_ids h] at hk
    refine ⟨(List.mem_filter.mp hk).2, ?_⟩
    have hmem : k ∈ (remarkStore st).map Prod.fst := by
      rw [map_fst_of_stripHdr (stripHdr_remarkStore st)]
      exact (List.mem_filter.mp hk).1
    exact Option.isSome_iff_exists.mp (slookup_isSome_iff.mpr hmem)
  refine ⟨sweep_append, hchain, o1, o3, ?_, ?_⟩
  · intro k hk hmarked
    obtain ⟨hsel, r, hlr⟩ := hmemR k hk
    have hmr : markedOf r.hdr = true := by
      unfold isMarkedAt at hmarked
      rw [hlr] at hmarked
      simpa using hmarked
    rw [hchain]
    exact (mem_keys_filter hndR _ k).mpr
      ⟨r, hlr, by simp [keepPred, deadPred, hmr]⟩
  · intro k hk hunmarked
    obtain ⟨hsel, r, hlr⟩ := hmemR k hk
    have hmr : markedOf r.hdr = false := by
      unfold isMarkedAt at hunmarked
      rw [hlr] at hunmarked
      simpa using hunmarked
    rw [hchain]
    intro hmem
    obtain ⟨r', hlr', hkeep⟩ := (mem_keys_filter hndR _ k).mp hmem
    rw [hlr] at hlr'
    injection hlr' with he
    rw [← he] at hkeep
    rw [show keepPred (condemnSel st) (k, r) = false from by
      simp [keepPred, deadPred, hsel, hmr]] at hkeep
    cases hkeep

/-- A two-record heap, reachable through the public API, in which record 1
is condemned and record 0 survives. -/
theorem scenDropB_WF : WF scenDropB := by
  refine ⟨by decide, ?_⟩
  show ChainSeg scenDropB.store scenDropB.boxes_start
    (scenDropB.store.map Prod.fst) none
  exact ChainSeg.cons rfl (ChainSeg.cons rfl (ChainSeg.nil none))

/-- Witness for Claim C5 on the concrete two-record heap: the condemned list
is non-empty and the resulting chain is exactly the kept records. -/
theorem c5_sweep_behavior_wit :
    (condemnedOf scenDropB).isEmpty = false ∧
    chainList (collectGarbage scenDropB) =
      ((remarkStore scenDropB).filter
        (keepPred (condemnSel scenDropB))).map Prod.fst :=
  ⟨by decide, (c5_sweep_behavior scenDropB scenDropB_WF (by decide)).2.1⟩

/-- Claim C4: if a condemned record's root count is positive after the
finalize step — a finalizer stored a new strong handle to it — then the
re-mark marks it, the sweep skips it, and the record survives the enclosing
collection: it stays in the chain and a weak handle to it still resolves. -/
theorem c4_resurrection (st : GcState) (i : Nat) (h : WF st)
    (hc : i ∈ (condemnedOf st).map Prod.snd)
    (hr : 0 < rootsAt (finalizedStore st) i) :
    i ∈ chainList (collectGarbage st) ∧
    (weakValue (collectGarbage st) i).isSome = true := by
  have hne : (condemnedOf st).isEmpty = false := by
    cases hcl : condemnedOf st with
    | nil => rw [hcl] at hc; simp at hc
    | cons a t => simp [hcl]
  have hmem : i ∈ st.store.map Prod.fst := by
    rw [condemned_ids h] at hc
    exact (List.mem_filter.mp hc).1
  have hsegF : ChainSeg (finalizedStore st) st.boxes_start
      (st.store.map Prod.fst) none :=
    h.aligned.of_stripHdr (stripHdr_finalizedStore st)
  have hlenF : (st.store.map Prod.fst).length ≤ (finalizedStore st).length := by
    have hlen := congrArg List.length (map_fst_of_stripHdr
      (stripHdr_finalizedStore st))
    simp only [List.length_map] at hlen
    simp [hlen]
  have hmarked : isMarkedAt (remarkStore st) i = true := by
    unfold remarkStore
    exact markPhase_marks_rooted hsegF hlenF hmem hr
  have hndR : ((remarkStore st).map Prod.fst).Nodup := by
    rw [map_fst_of_stripHdr (stripHdr_remarkStore st)]
    exact h.nodup
  obtain ⟨r, hlr⟩ : ∃ r, slookup (remarkStore st) i = some r := by
    refine Option.isSome_iff_exists.mp (slookup_isSome_iff.mpr ?_)
    rw [map_fst_of_stripHdr (stripHdr_remarkStore st)]
    exact hmem
  have hmr : markedOf r.hdr = true := by
    unfold isMarkedAt at hmarked
    rw [hlr] at hmarked
    simpa using hmarked
  have hchain : i ∈ chainList (collectGarbage st) := by
    rw [collectGarbage_chainList h hne]
    exact (mem_keys_filter hndR _ i).mpr
      ⟨r, hlr, by simp [keepPred, deadPred, hmr]⟩
  refine ⟨hchain, ?_⟩
  have hlookres : (slookup (collectGarbage st).store i).isSome = true := by
    rw [slookup_isSome_iff, ← chainList_eq_keys (collectGarbage_WF h)]
    exact hchain
  unfold weakValue
  rw [if_pos (show isAlive (collectGarbage st) i = true from by
    unfold isAlive
    exact decide_eq_true hchain)]
  obtain ⟨v, hv⟩ := Option.isSome_iff_exists.mp hlookres
  rw [hv]
  rfl

/-- A single record whose finalizer stores a new strong handle to the
record's own identity, with its external handle already dropped. -/
def scenRes : GcState :=
  dropHandle (insertGcbox 0 (standardRec 8 5 [] [] [0]) initState) 0

/-- The resurrection heap is well-formed. -/
theorem scenRes_WF : WF scenRes := by
  refine ⟨by decide, ?_⟩
  show ChainSeg scenRes.store scenRes.boxes_start
    (scenRes.store.map Prod.fst) none
  exact ChainSeg.cons rfl (ChainSeg.nil none)

/-- Witness for Claim C4: record 0 is condemned, its finalizer raises its
root count above zero, and it survives the collection with a resolving weak
handle. -/
theorem c4_resurrection_wit :
    0 ∈ (condemnedOf scenRes).map Prod.snd ∧
    0 < rootsAt (finalizedStore scenRes) 0 ∧
    0 ∈ chainList (collectGarbage scenRes) ∧
    (weakValue (collectGarbage scenRes) 0).isSome = true :=
  ⟨by decide, by decide,
    (c4_resurrection scenRes 0 scenRes_WF (by decide) (by decide)).1,
    (c4_resurrection scenRes 0 scenRes_WF (by decide) (by decide)).2⟩

/-- Claim C7: a weak handle resolves exactly when its record is currently a
member of the chain; when it resolves, it yields the stored payload;
liveness is decided by chain membership (equivalently store membership),
and the answer is independent of every record's header word — in
particular of all mark bits. -/
theorem c7_weak_value_chain_membership (st : GcState) (i : Nat) (h : WF st) :
    ((weakValue st i).isSome = true ↔ i ∈ chainList st) ∧
    (i ∈ chainList st ↔ (slookup st.store i).isSome = true) ∧
    weakValue st i =
      (if i ∈ chainList st then (slookup st.store i).map (fun r => r.data)
       else none) ∧
    (∀ s' : Store, stripHdr s' = stripHdr st.store →
      weakValue { st with store := s' } i = weakValue st i) := by
  have hmemiff : i ∈ chainList st ↔ (slookup st.store i).isSome = true := by
    rw [chainList_eq_keys h, slookup_isSome_iff]
  have hval : weakValue st i =
      (if i ∈ chainList st then (slookup st.store i).map (fun r => r.data)
       else none) := by
    unfold weakValue
    by_cases hmem : i ∈ chainList st
    · rw [if_pos (show isAlive st i = true from by
        unfold isAlive
        exact decide_eq_true hmem), if_pos hmem]
    · rw [if_neg (show ¬ isAlive st i = true from by
        unfold isAlive
        simp [hmem]), if_neg hmem]
  refine ⟨?_, hmemiff, hval, ?_⟩
  · rw [hval]
    by_cases hmem : i ∈ chainList st
    · rw [if_pos hmem]
      obtain ⟨v, hv⟩ := Option.isSome_iff_exists.mp (hmemiff.mp hmem)
      rw [hv]
      simpa using hmem
    · rw [if_neg hmem]
      simpa using hmem
  · intro s' hs'
    have hlen : s'.length = st.store.length := by
      have hl := congrArg List.length (map_fst_of_stripHdr hs')
      simpa using hl
    have hchain : chainList { st with store := s' } = chainList st := by
      show chainAux (s'.length + 1) s' st.boxes_start =
        chainAux (st.store.length + 1) st.store st.boxes_start
      rw [hlen, chainAux_congr_stripHdr hs']
    unfold weakValue
    rw [show isAlive { st with store := s' } i = isAlive st i from by
      unfold isAlive
      rw [hchain]]
    by_cases hmem : isAlive st i = true
    · rw [if_pos hmem, if_pos hmem]
      exact data_lookup_of_stripHdr hs' i
    · rw [if_neg hmem, if_neg hmem]

/-- A one-record heap used to witness the weak-handle claims. -/
def scenWeak : GcState := insertGcbox 0 (standardRec 16 42 [] [] []) initState

/-- The weak-handle heap is well-formed. -/
theorem scenWeak_WF : WF scenWeak := by
  refine ⟨by decide, ?_⟩
  show ChainSeg scenWeak.store scenWeak.boxes_start
    (scenWeak.store.map Prod.fst) none
  exact ChainSeg.cons rfl (ChainSeg.nil none)

/-- Witness for Claim C7: on the one-record heap, the weak handle to record
0 resolves (it is in the chain) and the weak handle to the absent record 7
does not. -/
theorem c7_weak_value_chain_membership_wit :
    (0 ∈ chainList scenWeak) ∧
    weakValue scenWeak 0 =
      (if 0 ∈ chainList scenWeak
       then (slookup scenWeak.store 0).map (fun r => r.data) else none) ∧
    ((weakValue scenWeak 7).isSome = true ↔ 7 ∈ chainList scenWeak) :=
  ⟨by decide, (c7_weak_value_chain_membership scenWeak 0 scenWeak_WF).2.2.1,
    (c7_weak_value_chain_membership scenWeak 7 scenWeak_WF).1⟩

/-- Claim C8: an ephemeron pair's value is observable only through a live
key: `value()` yields the stored value exactly when the key still resolves,
and yields an absent result (never a failure) when the key is gone — even
while the ephemeron-value record itself is still linked in the chain. -/
theorem c8_weak_pair_value (st : GcState) (p : WeakPairW) (h : WF st) :
    (isAlive st p.key = false → weakPairValue st p = none) ∧
    (isAlive st p.key = false → p.val ∈ chainList st →
      weakPairValue st p = none) ∧
    (isAlive st p.key = true →
      weakPairValue st p = (slookup st.store p.val).map (fun r => r.data)) := by
  have hdeadcase : isAlive st p.key = false → weakPairValue st p = none := by
    intro hdead
    unfold weakPairValue weakValue
    rw [if_neg (show ¬ isAlive st p.key = true from by
      rw [hdead]
      exact Bool.false_ne_true)]
    simp
  refine ⟨hdeadcase, fun hdead _ => hdeadcase hdead, ?_⟩
  intro halive
  have hkeymem : p.key ∈ chainList st := by
    unfold isAlive at halive
    simpa using halive
  have hksome : (slookup st.store p.key).isSome = true := by
    rw [slookup_isSome_iff, ← chainList_eq_keys h]
    exact hkeymem
  unfold weakPairValue weakValue
  rw [if_pos halive]
  obtain ⟨rk, hrk⟩ := Option.isSome_iff_exists.mp hksome
  rw [hrk]
  rw [if_pos (by rfl)]

/-- A heap holding only an ephemeron-value record (identity 5), so a pair
keyed on the absent record 0 has a dead key while its value record is still
linked. -/
def scenPair : GcState := insertGcbox 5 (ephemeronRec 8 9) initState

/-- The ephemeron-pair heap is well-formed. -/
theorem scenPair_WF : WF scenPair := by
  refine ⟨by decide, ?_⟩
  show ChainSeg scenPair.store scenPair.boxes_start
    (scenPair.store.map Prod.fst) none
  exact ChainSeg.cons rfl (ChainSeg.nil none)

/-- Witness for Claim C8: the pair's key (record 0) is dead while its value
record 5 is still linked in the chain, and `value()` yields the absent
result. -/
theorem c8_weak_pair_value_wit :
    isAlive scenPair (WeakPairW.mk 0 5).key = false ∧
    (WeakPairW.mk 0 5).val ∈ chainList scenPair ∧
    weakPairValue scenPair (WeakPairW.mk 0 5) = none :=
  ⟨by decide, by decide,
    (c8_weak_pair_value scenPair (WeakPairW.mk 0 5) scenPair_WF).2.1
      (by decide) (by decide)⟩

/-! Byte accounting: the `bytes_allocated` statistic versus the sizes of the
records actually linked in the chain. -/

/-- Total size of the records of a store. -/
def storeBytes (s : Store) : Nat := (s.map (fun kr => kr.2.size)).sum

/-- Sum of the sizes of the records currently linked in the chain, read off
by walking the chain and looking each identity up. -/
def chainBytes (st : GcState) : Nat :=
  ((chainList st).map
    (fun i => ((slookup st.store i).map (fun q => q.size)).getD 0)).sum

/-- The byte statistic matches the chain contents (`gc.rs` keeps
`stats.bytes_allocated` equal to the bytes held by the chain). -/
def bytesInv (st : GcState) : Prop := st.bytes_allocated = chainBytes st

/-- Sizes are unaffected by header-stripping. -/
theorem map_size_stripHdr (s : Store) :
    (stripHdr s).map (fun kr => kr.2.size) = s.map (fun kr => kr.2.size) := by
  unfold stripHdr
  induction s with
  | nil => rfl
  | cons kr t ih => simpa using ih

/-- Stores that agree up to headers hold the same bytes. -/
theorem storeBytes_of_stripHdr {a b : Store} (h : stripHdr a = stripHdr b) :
    storeBytes a = storeBytes b := by
  unfold storeBytes
  rw [← map_size_stripHdr a, ← map_size_stripHdr b, h]

/-- Stores that agree up to chain links hold the same bytes. -/
theorem storeBytes_of_stripNext {a b : Store} (h : stripNext a = stripNext b) :
    storeBytes a = storeBytes b := by
  unfold storeBytes
  rw [← map_size_stripNext a, ← map_size_stripNext b, h]

/-- Looking every key of a duplicate-free store up recovers the record sizes
in store order. -/
theorem keys_sizes : ∀ (s : Store), (s.map Prod.fst).Nodup →
    (s.map Prod.fst).map
        (fun i => ((slookup s i).map (fun q => q.size)).getD 0) =
      s.map (fun kr => kr.2.size) := by
  intro s
  induction s with
  | nil => intro _; rfl
  | cons kr t ih =>
    intro hnd
    obtain ⟨k, r⟩ := kr
    simp only [List.map_cons, List.nodup_cons] at hnd
    obtain ⟨hk, hndt⟩ := hnd
    simp only [List.map_cons]
    have hhead : ((slookup ((k, r) :: t) k).map (fun q => q.size)).getD 0 =
        r.size := by
      simp [slookup]
    rw [hhead]
    have htail : (t.map Prod.fst).map
        (fun i => ((slookup ((k, r) :: t) i).map (fun q => q.size)).getD 0) =
      (t.map Prod.fst).map
        (fun i => ((slookup t i).map (fun q => q.size)).getD 0) := by
      refine List.map_congr_left ?_
      intro j hj
      have hne : ¬ k = j := fun he => hk (by rw [he]; exact hj)
      simp [slookup, hne]
    rw [htail, ih hndt]

/-- In a well-formed state the chain bytes are the store bytes. -/
theorem chainBytes_eq_storeBytes {st : GcState} (h : WF st) :
    chainBytes st = storeBytes st.store := by
  unfold chainBytes storeBytes
  rw [chainList_eq_keys h, keys_sizes st.store h.nodup]

/-- Splitting a store along the sweep's keep/deallocate decision splits its
bytes. -/
theorem storeBytes_filter_split (P : Nat → Bool) (s : Store) :
    storeBytes (s.filter (keepPred P)) + deadBytes P s = storeBytes s := by
  induction s with
  | nil => rfl
  | cons kr t ih =>
    by_cases hd : deadPred P kr = true
    · have hk : keepPred P kr = false := by
        unfold keepPred
        rw [hd]
        rfl
      have e1 : storeBytes ((kr :: t).filter (keepPred P)) =
          storeBytes (t.filter (keepPred P)) := by
        rw [List.filter_cons, hk]
        simp
      have e2 : deadBytes P (kr :: t) = kr.2.size + deadBytes P t := by
        unfold deadBytes
        rw [List.filter_cons, hd]
        simp
      have e3 : storeBytes (kr :: t) = kr.2.size + storeBytes t := by
        unfold storeBytes
        simp
      rw [e1, e2, e3]
      omega
    · have hd' : deadPred P kr = false := by simpa using hd
      have hk : keepPred P kr = true := by
        unfold keepPred
        rw [hd']
        rfl
      have e1 : storeBytes ((kr :: t).filter (keepPred P)) =
          kr.2.size + storeBytes (t.filter (keepPred P)) := by
        rw [List.filter_cons, hk]
        unfold storeBytes
        simp
      have e2 : deadBytes P (kr :: t) = deadBytes P t := by
        unfold deadBytes
        rw [List.filter_cons, hd']
        simp
      have e3 : storeBytes (kr :: t) = kr.2.size + storeBytes t := by
        unfold storeBytes
        simp
      rw [e1, e2, e3]
      omega

/-- A store replacement that preserves keys and links preserves
well-formedness. -/
theorem WF_of_stripHdr {st : GcState} (h : WF st) {s' : Store}
    (hs : stripHdr s' = stripHdr st.store) : WF { st with store := s' } := by
  refine ⟨?_, ?_⟩
  · show (s'.map Prod.fst).Nodup
    rw [map_fst_of_stripHdr hs]
    exact h.nodup
  · show ChainSeg s' st.boxes_start (s'.map Prod.fst) none
    rw [map_fst_of_stripHdr hs]
    exact h.aligned.of_stripHdr hs

/-- The trivial branch of a collection, as an equation. -/
theorem collectGarbage_eq_empty {st : GcState}
    (hne : (condemnedOf st).isEmpty = true) :
    collectGarbage st =
      ⟨unmarkedStore st, st.boxes_start, st.bytes_allocated,
        st.collections_performed + 1, st.threshold, st.used_space_frac,
        st.leak_on_drop⟩ := by
  unfold collectGarbage
  rw [if_pos hne]

/-- A collection never invents record identities. -/
theorem collectGarbage_keys_sub {st : GcState} (h : WF st) {j : Nat}
    (hj : j ∈ (collectGarbage st).store.map Prod.fst) :
    j ∈ st.store.map Prod.fst := by
  by_cases hne : (condemnedOf st).isEmpty = true
  · rw [collectGarbage_eq_empty hne] at hj
    rw [← map_fst_of_stripHdr (stripHdr_unmarkedStore st)]
    exact hj
  · have hne' : (condemnedOf st).isEmpty = false := by simpa using hne
    have hkeysRes := map_fst_of_stripNext (collectGarbage_spec h hne').1
    rw [hkeysRes] at hj
    have hsub : List.Sublist
        (((remarkStore st).filter (keepPred (condemnSel st))).map Prod.fst)
        ((remarkStore st).map Prod.fst) :=
      List.Sublist.map Prod.fst (List.filter_sublist _)
    have hj2 := hsub.subset hj
    rw [map_fst_of_stripHdr (stripHdr_remarkStore st)] at hj2
    exact hj2

/-- The threshold back-off only rewrites the threshold field. -/
theorem maybeGrow_fields (st : GcState) :
    (maybeGrowThreshold st).store = st.store ∧
    (maybeGrowThreshold st).boxes_start = st.boxes_start ∧
    (maybeGrowThreshold st).bytes_allocated = st.bytes_allocated := by
  unfold maybeGrowThreshold
  by_cases hc : (st.threshold : ℚ) * st.used_space_frac < (st.bytes_allocated : ℚ)
  · rw [if_pos hc]
    exact ⟨rfl, rfl, rfl⟩
  · rw [if_neg hc]
    exact ⟨rfl, rfl, rfl⟩

/-- The threshold back-off leaves the chain alone. -/
theorem chainList_maybeGrow (st : GcState) :
    chainList (maybeGrowThreshold st) = chainList st := by
  obtain ⟨h1, h2, _⟩ := maybeGrow_fields st
  show chainAux ((maybeGrowThreshold st).store.length + 1)
      (maybeGrowThreshold st).store (maybeGrowThreshold st).boxes_start =
    chainList st
  rw [h1, h2]
  rfl

/-- The threshold back-off preserves well-formedness. -/
theorem WF_maybeGrow {st : GcState} (h : WF st) : WF (maybeGrowThreshold st) := by
  obtain ⟨h1, h2, _⟩ := maybeGrow_fields st
  refine ⟨?_, ?_⟩
  · show ((maybeGrowThreshold st).store.map Prod.fst).Nodup
    rw [h1]
    exact h.nodup
  · show ChainSeg (maybeGrowThreshold st).store (maybeGrowThreshold st).boxes_start
      ((maybeGrowThreshold st).store.map Prod.fst) none
    rw [h1, h2]
    exact h.aligned

/-- The threshold back-off preserves the byte invariant. -/
theorem bytesInv_maybeGrow {st : GcState} (hb : bytesInv st) :
    bytesInv (maybeGrowThreshold st) := by
  obtain ⟨h1, _, h3⟩ := maybeGrow_fields st
  show (maybeGrowThreshold st).bytes_allocated = chainBytes (maybeGrowThreshold st)
  unfold chainBytes
  rw [h3, chainList_maybeGrow, h1]
  exact hb

/-- Linking a fresh record at the chain head preserves well-formedness. -/
theorem WF_link {st : GcState} (h : WF st) (i : Nat) (r : Rec)
    (hfresh : i ∉ st.store.map Prod.fst) :
    WF { st with
          store := (i, { r with next := st.boxes_start }) :: st.store,
          boxes_start := some i,
          bytes_allocated := st.bytes_allocated +
            ({ r with next := st.boxes_start } : Rec).size } := by
  refine ⟨?_, ?_⟩
  · show (((i, ({ r with next := st.boxes_start } : Rec)) :: st.store).map
      Prod.fst).Nodup
    simp only [List.map_cons]
    exact List.nodup_cons.mpr ⟨hfresh, h.nodup⟩
  · show ChainSeg ((i, ({ r with next := st.boxes_start } : Rec)) :: st.store)
      (some i) (i :: st.store.map Prod.fst) none
    have hl : slookup ((i, ({ r with next := st.boxes_start } : Rec)) :: st.store) i =
        some ({ r with next := st.boxes_start } : Rec) := by
      simp [slookup]
    refine ChainSeg.cons hl ?_
    show ChainSeg ((i, ({ r with next := st.boxes_start } : Rec)) :: st.store)
      st.boxes_start (st.store.map Prod.fst) none
    refine ChainSeg.frame_next (fun j hj => ?_) h.aligned
    have hne : ¬ i = j := fun he => hfresh (by rw [he]; exact hj)
    simp [slookup, hne]

/-- Linking a fresh record at the chain head and adding its size preserves
the byte invariant. -/
theorem bytesInv_link {st : GcState} (h : WF st) (hb : bytesInv st)
    (i : Nat) (r : Rec) (hfresh : i ∉ st.store.map Prod.fst) :
    bytesInv { st with
      store := (i, { r with next := st.boxes_start }) :: st.store,
      boxes_start := some i,
      bytes_allocated := st.bytes_allocated +
        ({ r with next := st.boxes_start } : Rec).size } := by
  have hb' : st.bytes_allocated = chainBytes st := hb
  have hwf := WF_link h i r hfresh
  show st.bytes_allocated + ({ r with next := st.boxes_start } : Rec).size =
    chainBytes { st with
      store := (i, { r with next := st.boxes_start }) :: st.store,
      boxes_start := some i,
      bytes_allocated := st.bytes_allocated +
        ({ r with next := st.boxes_start } : Rec).size }
  rw [chainBytes_eq_storeBytes hwf]
  show st.bytes_allocated + ({ r with next := st.boxes_start } : Rec).size =
    storeBytes ((i, ({ r with next := st.boxes_start } : Rec)) :: st.store)
  have e3 : storeBytes ((i, ({ r with next := st.boxes_start } : Rec)) :: st.store) =
      ({ r with next := st.boxes_start } : Rec).size + storeBytes st.store := by
    unfold storeBytes
    simp
  rw [e3, ← chainBytes_eq_storeBytes h]
  omega

/-- A collection preserves the byte invariant: the sweep subtracts exactly
the bytes of the records it unlinks. -/
theorem bytesInv_collect {st : GcState} (h : WF st) (hb : bytesInv st) :
    bytesInv (collectGarbage st) := by
  have hb' : st.bytes_allocated = chainBytes st := hb
  have hwf' := collectGarbage_WF h
  show (collectGarbage st).bytes_allocated = chainBytes (collectGarbage st)
  rw [chainBytes_eq_storeBytes hwf']
  by_cases hne : (condemnedOf st).isEmpty = true
  · rw [collectGarbage_eq_empty hne]
    show st.bytes_allocated = storeBytes (unmarkedStore st)
    rw [storeBytes_of_stripHdr (stripHdr_unmarkedStore st),
      ← chainBytes_eq_storeBytes h]
    exact hb'
  · have hne' : (condemnedOf st).isEmpty = false := by simpa using hne
    obtain ⟨o1, _, o3⟩ := collectGarbage_spec h hne'
    rw [o3, storeBytes_of_stripNext o1]
    have hsplit := storeBytes_filter_split (condemnSel st) (remarkStore st)
    have hrb : storeBytes (remarkStore st) = st.bytes_allocated := by
      rw [storeBytes_of_stripHdr (stripHdr_remarkStore st),
        ← chainBytes_eq_storeBytes h]
      exact hb'.symm
    omega

/-- Dropping a handle preserves the byte invariant. -/
theorem bytesInv_drop {st : GcState} (h : WF st) (hb : bytesInv st) (i : Nat) :
    bytesInv (dropHandle st i) := by
  have hb' : st.bytes_allocated = chainBytes st := hb
  have hs : stripHdr (supdate st.store i decRootsRec) = stripHdr st.store :=
    stripHdr_supdate (fun q => rfl)
  have hwf : WF (dropHandle st i) := WF_of_stripHdr h hs
  show (dropHandle st i).bytes_allocated = chainBytes (dropHandle st i)
  rw [chainBytes_eq_storeBytes hwf]
  show st.bytes_allocated = storeBytes (supdate st.store i decRootsRec)
  rw [storeBytes_of_stripHdr hs, ← chainBytes_eq_storeBytes h]
  exact hb'

/-- The collection-free path of an insertion, as an equation. -/
theorem insertGcbox_eq_noCollect {st : GcState}
    (hth : ¬ st.threshold < st.bytes_allocated) (i : Nat) (r : Rec) :
    insertGcbox i r st =
      { st with
          store := (i, { r with next := st.boxes_start }) :: st.store,
          boxes_start := some i,
          bytes_allocated := st.bytes_allocated +
            ({ r with next := st.boxes_start } : Rec).size } := by
  simp only [insertGcbox]
  rw [if_neg hth]

/-- The collecting path of an insertion, as an equation. -/
theorem insertGcbox_eq_collect {st : GcState}
    (hth : st.threshold < st.bytes_allocated) (i : Nat) (r : Rec) :
    insertGcbox i r st =
      { maybeGrowThreshold (collectGarbage st) with
          store := (i, { r with
              next := (maybeGrowThreshold (collectGarbage st)).boxes_start })
            :: (maybeGrowThreshold (collectGarbage st)).store,
          boxes_start := some i,
          bytes_allocated := (maybeGrowThreshold (collectGarbage st)).bytes_allocated +
            ({ r with
                next := (maybeGrowThreshold (collectGarbage st)).boxes_start } :
              Rec).size } := by
  simp only [insertGcbox]
  rw [if_pos hth]

/-- Claim C10: the `bytes_allocated` statistic always equals the sum of the
sizes of the records currently linked in the chain, and this equality is
preserved by every public operation — a collection (the sweep subtracts
exactly the size of each record it deallocates), an allocation of a fresh
record (which adds exactly the size of the newly linked box, whether or not
it first triggers a collection), and a handle drop (which never touches the
counter). -/
theorem c10_bytes_invariant (st : GcState) (h : WF st) (hb : bytesInv st) :
    bytesInv (collectGarbage st) ∧
    (∀ (i : Nat) (r : Rec), i ∉ st.store.map Prod.fst →
      bytesInv (insertGcbox i r st)) ∧
    (∀ i : Nat, bytesInv (dropHandle st i)) := by
  refine ⟨bytesInv_collect h hb, ?_, fun i => bytesInv_drop h hb i⟩
  intro i r hfresh
  by_cases hth : st.threshold < st.bytes_allocated
  · rw [insertGcbox_eq_collect hth]
    have hfresh' : i ∉ (maybeGrowThreshold (collectGarbage st)).store.map
        Prod.fst := by
      rw [(maybeGrow_fields (collectGarbage st)).1]
      intro hmem
      exact hfresh (collectGarbage_keys_sub h hmem)
    exact bytesInv_link (WF_maybeGrow (collectGarbage_WF h))
      (bytesInv_maybeGrow (bytesInv_collect h hb)) i r hfresh'
  · rw [insertGcbox_eq_noCollect hth]
    exact bytesInv_link h hb i r hfresh

/-- Witness for C10 at a concrete heap: the invariant holds before and after
the collection that sweeps record 1. -/
theorem c10_bytes_invariant_wit :
    bytesInv scenDropB ∧ bytesInv (collectGarbage scenDropB) := by
  have hbInv : bytesInv scenDropB := by
    show scenDropB.bytes_allocated = chainBytes scenDropB
    decide
  exact ⟨hbInv, (c10_bytes_invariant scenDropB scenDropB_WF hbInv).1⟩

end RustGc
